import Mathlib

/-!
Shallow embedding of the BullBook order-book code.

The embedding covers:
* the order-book reconstruction logic of the `useOrderBook` React hook
  (`applySnapshot`, `applyDelta`, message handling), where price levels are
  pairs of decimal strings `[price, size]`, JavaScript `Map` objects are
  modelled as association lists with insertion-order semantics, and the
  stable `Array.prototype.sort` is modelled by a stable insertion sort;
* the `useOrderBookAuto` hook's own copy of `applyDelta`;
* the backend `BybitProxy` (subscription bookkeeping, snapshot cache,
  broadcast) as an explicit state machine over event lists.

JavaScript `parseFloat` on the decimal strings used by the feed is modelled
exactly: a parsed number is an integer mantissa together with a power-of-ten
denominator (`Dec`), whose rational value is given by `Dec.toRat`; a string
with no leading numeric prefix parses to `none` (JavaScript `NaN`).
Comparisons on `Dec` are performed by integer cross-multiplication so that
all definitions evaluate by kernel reduction.  Absent/`null` numeric fields
are encoded as `0` (both are falsy in the source's `||` defaulting), and
`Date.now()` is passed in as an explicit `now` argument wherever the source
reads the clock.
-/

/-- An exactly parsed decimal number with value `num / 10 ^ exp`. -/
structure Dec where
  num : Int
  exp : Nat
  deriving DecidableEq, Repr

/-- Powers of ten as integers, by structural recursion so that the kernel
evaluates them. -/
def tenPow : Nat → Int
  | 0 => 1
  | k + 1 => 10 * tenPow k

/-- The rational value of a parsed decimal. -/
def Dec.toRat (d : Dec) : ℚ := (d.num : ℚ) / (10 ^ d.exp : ℚ)

/-- Order on parsed decimals by integer cross-multiplication. -/
def Dec.le (a b : Dec) : Bool := a.num * tenPow b.exp ≤ b.num * tenPow a.exp

/-- Numeric value of a list of decimal digit characters. -/
def digitsToNat (ds : List Char) : Nat :=
  ds.foldl (fun n c => 10 * n + (c.toNat - 48)) 0

/-- Model of JavaScript `parseFloat` on the decimal strings used by the feed:
optional sign, integer digits, optional fractional digits.  Returns `none`
when no digits can be consumed (JavaScript `NaN`). -/
def parseFloatD (s : String) : Option Dec :=
  let cs := s.data
  let signed : Bool × List Char :=
    match cs with
    | '-' :: rest => (true, rest)
    | '+' :: rest => (false, rest)
    | _ => (false, cs)
  let intDs := signed.2.takeWhile Char.isDigit
  let rest := signed.2.dropWhile Char.isDigit
  let fracDs : List Char :=
    match rest with
    | '.' :: more => more.takeWhile Char.isDigit
    | _ => []
  if intDs.isEmpty ∧ fracDs.isEmpty then none
  else
    let n : Int := Int.ofNat (digitsToNat intDs * 10 ^ fracDs.length + digitsToNat fracDs)
    some { num := if signed.1 then -n else n, exp := fracDs.length }

/-- The test `parseFloat(size) === 0` from the delta loops (`NaN === 0` is
false, so an unparseable size never triggers a deletion). -/
def sizeIsZero (s : String) : Bool :=
  match parseFloatD s with
  | some d => d.num == 0
  | none => false

/-- Parsed decimal used by the sort comparators; the defaulting is irrelevant
for well-formed numeric strings. -/
def pfD (s : String) : Dec := (parseFloatD s).getD { num := 0, exp := 0 }

/-- Rational value of a price string as the sort comparators see it. -/
def priceVal (s : String) : ℚ := (pfD s).toRat

/-- One price level as carried on the wire: `[priceString, sizeString]`. -/
abbrev Entry := String × String

/-- JavaScript `Map.prototype.set` on an association list: update the value
in place if the key is present, otherwise append at the end. -/
def mapSet {α : Type} : List (String × α) → String → α → List (String × α)
  | [], k, v => [(k, v)]
  | (k', v') :: rest, k, v =>
      if k' = k then (k, v) :: rest else (k', v') :: mapSet rest k v

/-- JavaScript `Map.prototype.delete`: remove the entry with the given key. -/
def mapDelete {α : Type} (m : List (String × α)) (k : String) : List (String × α) :=
  m.filter (fun e => e.1 != k)

/-- JavaScript `Map.prototype.get`. -/
def mapGet {α : Type} (m : List (String × α)) (k : String) : Option α :=
  (m.find? (fun e => e.1 == k)).map Prod.snd

/-- JavaScript `new Map(entries)`: fold `set` over the entry list. -/
def jsMapOfList {α : Type} (l : List (String × α)) : List (String × α) :=
  l.foldl (fun m e => mapSet m e.1 e.2) []

/-- Keys of an association list, in order. -/
def mapKeys {α : Type} (m : List (String × α)) : List String := m.map Prod.fst

/-- One step of delta application on a side map, from the `forEach` body of
`applyDelta`: delete the price key when the size parses to `0`, otherwise
upsert. -/
def deltaStep (m : List Entry) (e : Entry) : List Entry :=
  if sizeIsZero e.2 then mapDelete m e.1 else mapSet m e.1 e.2

/-- Apply all entries of one delta side to a side map, in order. -/
def deltaApply (m : List Entry) (es : List Entry) : List Entry :=
  es.foldl deltaStep m

/-- Stable insertion of an element into a list sorted ascending by `le`: the
element goes after every element that compares `≤` to it, matching the
stable JavaScript `Array.prototype.sort`. -/
def insSorted (le : Entry → Entry → Bool) (x : Entry) : List Entry → List Entry
  | [] => [x]
  | y :: ys => if le y x then y :: insSorted le x ys else x :: y :: ys

/-- Stable sort ascending by `le`, processing the list left to right. -/
def sortByLe (le : Entry → Entry → Bool) (l : List Entry) : List Entry :=
  l.foldl (fun acc x => insSorted le x acc) []

/-- Comparator order for the bid side: `(a, b) => parseFloat(b[0]) - parseFloat(a[0])`
sorts descending by parsed price, so `x` precedes `y` when `y`'s price is `≤` `x`'s. -/
def bidLe (x y : Entry) : Bool := Dec.le (pfD y.1) (pfD x.1)

/-- Comparator order for the ask side: ascending by parsed price. -/
def askLe (x y : Entry) : Bool := Dec.le (pfD x.1) (pfD y.1)

/-- The `data` object of an order-book message: bid list `b`, ask list `a`,
update id `u`, timestamp `ts`.  `u = 0` and `ts = 0` encode absent (falsy)
fields. -/
structure BookMsg where
  b : List Entry
  a : List Entry
  u : Nat
  ts : Nat
  deriving DecidableEq, Repr

/-- The order-book state held by the hooks: `bids`, `asks`, `timestamp`,
`updateId` (`0` encodes the initial `null`). -/
structure OrderBookState where
  bids : List Entry
  asks : List Entry
  timestamp : Nat
  updateId : Nat
  deriving DecidableEq, Repr

/-- The initial hook state: empty sides, `null` timestamp and update id. -/
def initialBook : OrderBookState :=
  { bids := [], asks := [], timestamp := 0, updateId := 0 }

/-- The `applySnapshot` callback of `useOrderBook`: the message's sides are
installed verbatim, `updateId := data.u || 0`, `timestamp := data.ts || Date.now()`. -/
def applySnapshot (d : BookMsg) (now : Nat) : OrderBookState :=
  { bids := d.b
    asks := d.a
    timestamp := if d.ts ≠ 0 then d.ts else now
    updateId := d.u }

/-- Update of one side by `applyDelta`: skipped when the delta side is empty,
otherwise rebuild the side map, apply every delta entry, sort by the side's
comparator and keep the first `depth` levels. -/
def updateSide (le : Entry → Entry → Bool) (depth : Nat) (old : List Entry)
    (es : List Entry) : List Entry :=
  if es.isEmpty then old
  else (sortByLe le (deltaApply (jsMapOfList old) es)).take depth

/-- The `applyDelta` callback of `useOrderBook`:
`updateId = data.u || currentBook.updateId`; a computed update id of `1`
forces a full snapshot-style replacement, otherwise both sides are updated
incrementally. -/
def applyDelta (depth : Nat) (d : BookMsg) (cur : OrderBookState) (now : Nat) :
    OrderBookState :=
  let uid := if d.u ≠ 0 then d.u else cur.updateId
  if uid = 1 then
    { bids := d.b
      asks := d.a
      timestamp := if d.ts ≠ 0 then d.ts else now
      updateId := uid }
  else
    { bids := updateSide bidLe depth cur.bids d.b
      asks := updateSide askLe depth cur.asks d.a
      timestamp := if d.ts ≠ 0 then d.ts else now
      updateId := uid }

/-- One upstream message as seen by the hook: a snapshot or a delta, with the
clock value at processing time. -/
inductive Msg
  | snapshot (d : BookMsg) (now : Nat)
  | delta (d : BookMsg) (now : Nat)
  deriving DecidableEq, Repr

/-- Dispatch of one message on the book state, as in the hook's listener. -/
def applyMsg (depth : Nat) (st : OrderBookState) (m : Msg) : OrderBookState :=
  match m with
  | .snapshot d now => applySnapshot d now
  | .delta d now => applyDelta depth d st now

/-- Apply a finite sequence of messages in arrival order. -/
def applyMsgs (depth : Nat) (st : OrderBookState) (ms : List Msg) : OrderBookState :=
  ms.foldl (applyMsg depth) st

/-- Model of `String.prototype.startsWith` on character lists. -/
def listStartsWith : List Char → List Char → Bool
  | _, [] => true
  | [], _ :: _ => false
  | c :: cs, p :: ps => c == p && listStartsWith cs ps

/-- Model of `String.prototype.includes` on character lists. -/
def listContainsSub : List Char → List Char → Bool
  | [], pat => pat.isEmpty
  | c :: rest, pat => listStartsWith (c :: rest) pat || listContainsSub rest pat

/-- JavaScript `topic.startsWith(pat)`. -/
def strStartsWith (s pat : String) : Bool := listStartsWith s.data pat.data

/-- JavaScript `topic.includes(pat)`. -/
def strIncludes (s pat : String) : Bool := listContainsSub s.data pat.data

/-- A message as delivered to the hook's listener: `topic`, `type`, `data`
(`topic = ""` encodes a missing/falsy topic). -/
structure WsMessage where
  topic : String
  type : String
  data : BookMsg
  deriving DecidableEq, Repr

/-- The listener body of `useOrderBook`: skip when paused, skip messages whose
topic does not mention both the symbol and `orderbook.<depth>.`, then apply
the snapshot or delta. -/
def handleMessage (symbol : String) (depth : Nat) (paused : Bool) (msg : WsMessage)
    (st : OrderBookState) (now : Nat) : OrderBookState :=
  if paused then st
  else if msg.topic = "" ∨ strIncludes msg.topic symbol = false
      ∨ strIncludes msg.topic ("orderbook." ++ toString depth ++ ".") = false then st
  else if msg.type = "snapshot" then applySnapshot msg.data now
  else if msg.type = "delta" then applyDelta depth msg.data st now
  else st

/-- The `applyDelta` callback of `useOrderBookAuto`, translated from its own
source: identical logic with the trim depth taken from the selected source. -/
def applyDeltaAuto (sourceDepth : Nat) (d : BookMsg) (cur : OrderBookState)
    (now : Nat) : OrderBookState :=
  let uid := if d.u ≠ 0 then d.u else cur.updateId
  if uid = 1 then
    { bids := d.b
      asks := d.a
      timestamp := if d.ts ≠ 0 then d.ts else now
      updateId := uid }
  else
    { bids :=
        if d.b.isEmpty then cur.bids
        else (sortByLe bidLe (deltaApply (jsMapOfList cur.bids) d.b)).take sourceDepth
      asks :=
        if d.a.isEmpty then cur.asks
        else (sortByLe askLe (deltaApply (jsMapOfList cur.asks) d.a)).take sourceDepth
      timestamp := if d.ts ≠ 0 then d.ts else now
      updateId := uid }

/-- Last value written for a key by a delta entry list (later entries win). -/
def lastVal? : List Entry → String → Option String
  | [], _ => none
  | e :: es, k =>
    match lastVal? es k with
    | some v => some v
    | none => if e.1 = k then some e.2 else none

/-- Rewrite one map entry to the last value a delta entry list assigns to its
key, if any. -/
def updLast (es : List Entry) (x : Entry) : Entry :=
  match lastVal? es x.1 with
  | some v => (x.1, v)
  | none => x

/-- Deduplication keeping the first occurrence of each element, matching the
insertion order of a JavaScript `Map` built by repeated `set`. -/
def firstDedup : List String → List String
  | [] => []
  | k :: ks => k :: (firstDedup ks).filter (fun x => decide (¬ x = k))

/-- The entries a purely-upserting delta appends at the end of a side map:
its fresh keys in first-occurrence order, with their last assigned values. -/
def newTail (m : List Entry) (es : List Entry) : List Entry :=
  ((firstDedup (es.map Prod.fst)).filter (fun k => decide (¬ k ∈ mapKeys m))).map
    (fun k => (k, (lastVal? es k).getD ""))

/-- Sortedness with respect to a boolean comparator order. -/
abbrev SortedBy (le : Entry → Entry → Bool) (l : List Entry) : Prop :=
  l.Pairwise (fun a b => le a b = true)

/-- No entry of the side has a size that parses to zero. -/
abbrev NoZeroSize (l : List Entry) : Prop := ∀ e ∈ l, sizeIsZero e.2 = false

/-- Strictly descending by parsed price. -/
def StrictBidSorted (l : List Entry) : Prop :=
  l.Pairwise (fun x y => priceVal y.1 < priceVal x.1)

/-- Strictly ascending by parsed price. -/
def StrictAskSorted (l : List Entry) : Prop :=
  l.Pairwise (fun x y => priceVal x.1 < priceVal y.1)

/-- A well-formed bid side: no zero sizes, within depth, strictly descending. -/
def GoodBidSide (depth : Nat) (l : List Entry) : Prop :=
  NoZeroSize l ∧ l.length ≤ depth ∧ StrictBidSorted l

/-- A well-formed ask side: no zero sizes, within depth, strictly ascending. -/
def GoodAskSide (depth : Nat) (l : List Entry) : Prop :=
  NoZeroSize l ∧ l.length ≤ depth ∧ StrictAskSorted l

/-- The order-book invariant of the specification. -/
def BookInv (depth : Nat) (st : OrderBookState) : Prop :=
  GoodBidSide depth st.bids ∧ GoodAskSide depth st.asks

/-- The payload of a message. -/
def msgData : Msg → BookMsg
  | .snapshot d _ => d
  | .delta d _ => d

/-- All price strings carried by a message, both sides. -/
def msgPrices (m : Msg) : List String :=
  (msgData m).b.map Prod.fst ++ (msgData m).a.map Prod.fst

/-- Distinct price strings in the pool `P` parse to distinct values. -/
def PricesInj (P : List String) : Prop :=
  ∀ p ∈ P, ∀ q ∈ P, priceVal p = priceVal q → p = q

/-! ### The backend `BybitProxy` -/

/-- An upstream Bybit message: control fields `op`/`success`, data fields
`topic`/`type`/`data` (`""` encodes a missing string field). -/
structure BybitMsg where
  op : String
  success : Bool
  topic : String
  type : String
  data : BookMsg
  deriving DecidableEq, Repr

/-- A frame sent to a downstream client: a re-broadcast or cached upstream
message, a pong, or the subscription acknowledgment. -/
inductive OutMsg
  | data (m : BybitMsg)
  | pong
  | subscribed (symbols : List String) (depth : Nat)
  deriving DecidableEq, Repr

/-- One downstream client socket: identifier, `readyState === OPEN` flag, and
the ordered list of frames sent to it. -/
structure Client where
  cid : Nat
  readyOpen : Bool
  sent : List OutMsg
  deriving DecidableEq, Repr

/-- A downstream client request: `{type, action, symbols, depth}` where
`symbols = none` models an absent or non-array field and `depth = 0` an
absent depth. -/
structure ClientMsg where
  type : String
  action : String
  symbols : Option (List String)
  depth : Nat
  deriving DecidableEq, Repr

/-- The `BybitProxy` instance state: active subscription key set (insertion
ordered), snapshot cache, connected clients, upstream-socket-open flag and
the list of `(op, args)` frames sent upstream. -/
structure ProxyS where
  subscribedSymbols : List String
  snapshotCache : List (String × BybitMsg)
  clients : List Client
  bybitOpen : Bool
  sentOps : List (String × List String)
  deriving DecidableEq, Repr

/-- JavaScript `Set.prototype.add` on an insertion-ordered list. -/
def setAdd (s : List String) (x : String) : List String :=
  if x ∈ s then s else s ++ [x]

/-- The subscription / cache key `` `${symbol}-${depth}` ``. -/
def subKey (symbol : String) (depth : Nat) : String :=
  symbol ++ "-" ++ toString depth

/-- The upstream channel string `` `orderbook.${depth}.${symbol}` ``. -/
def channel (depth : Nat) (symbol : String) : String :=
  "orderbook." ++ toString depth ++ "." ++ symbol

/-- JavaScript `topic.split('.')` on character lists. -/
def splitDots : List Char → List (List Char)
  | [] => [[]]
  | c :: rest =>
    let r := splitDots rest
    if c == '.' then [] :: r
    else
      match r with
      | [] => [[c]]
      | h :: t => (c :: h) :: t

/-- The parts of a topic string, as `topic.split('.')` produces them. -/
def topicParts (topic : String) : List String :=
  (splitDots topic.data).map (fun l => { data := l })

/-- The cache key `` `${symbol}-${depth}` `` extracted from a topic in
`handleBybitMessage`; a missing part stringifies to `"undefined"`. -/
def upstreamKey (topic : String) : String :=
  (topicParts topic).getD 2 "undefined" ++ "-" ++ (topicParts topic).getD 1 "undefined"

/-- Broadcast a message to every client whose socket is open. -/
def broadcast (st : ProxyS) (m : BybitMsg) : ProxyS :=
  { st with
    clients := st.clients.map (fun c =>
      if c.readyOpen then { c with sent := c.sent ++ [OutMsg.data m] } else c) }

/-- A direct `ws.send` to one particular client. -/
def sendToClient (st : ProxyS) (cid : Nat) (o : OutMsg) : ProxyS :=
  { st with
    clients := st.clients.map (fun c =>
      if c.cid = cid then { c with sent := c.sent ++ [o] } else c) }

/-- The frames sent so far to the client with the given id (empty when no
such client is connected). -/
def clientsSent : List Client → Nat → List OutMsg
  | [], _ => []
  | c :: cs, cid => if c.cid = cid then c.sent else clientsSent cs cid

/-- The sent-frame log of one client in a proxy state. -/
def clientSent (st : ProxyS) (cid : Nat) : List OutMsg :=
  clientsSent st.clients cid

/-- Whether a client with the given id is connected. -/
def hasClient : List Client → Nat → Bool
  | [], _ => false
  | c :: cs, cid => c.cid == cid || hasClient cs cid

/-- Model of `BybitProxy.subscribeToSymbols`: drop keys that are already active, send
one subscribe frame for the rest, then record their keys. -/
def subscribeToSymbols (st : ProxyS) (symbols : List String) (depth : Nat) : ProxyS :=
  if st.bybitOpen = false then st
  else
    let newSymbols := symbols.filter (fun s => decide (¬ subKey s depth ∈ st.subscribedSymbols))
    if newSymbols.isEmpty then st
    else
      { st with
        sentOps := st.sentOps ++ [("subscribe", newSymbols.map (channel depth))]
        subscribedSymbols :=
          newSymbols.foldl (fun acc s => setAdd acc (subKey s depth)) st.subscribedSymbols }

/-- Model of `BybitProxy.unsubscribeFromSymbols`: keep only currently active keys,
send one unsubscribe frame, then delete their keys. -/
def unsubscribeFromSymbols (st : ProxyS) (symbols : List String) (depth : Nat) : ProxyS :=
  if st.bybitOpen = false then st
  else
    let subscribed := symbols.filter (fun s => decide (subKey s depth ∈ st.subscribedSymbols))
    if subscribed.isEmpty then st
    else
      { st with
        sentOps := st.sentOps ++ [("unsubscribe", subscribed.map (channel depth))]
        subscribedSymbols :=
          subscribed.foldl (fun acc s => acc.filter (fun k => decide (¬ k = subKey s depth)))
            st.subscribedSymbols }

/-- The `open` handler installed by `BybitProxy.connectToBybit`: mark the
upstream socket open, then — if any keys are active — resubscribe by passing
the raw key set to `subscribeToSymbols` with its default depth of 50. -/
def bybitOnOpen (st : ProxyS) : ProxyS :=
  let st1 := { st with bybitOpen := true }
  if st1.subscribedSymbols.isEmpty then st1
  else subscribeToSymbols st1 st1.subscribedSymbols 50

/-- Model of `BybitProxy.handleBybitMessage`: ignore pong and subscribe responses;
for orderbook topics, cache the message when it is a snapshot, then broadcast
it to every connected client. -/
def handleBybitMessage (st : ProxyS) (m : BybitMsg) : ProxyS :=
  if m.op = "pong" then st
  else if m.op = "subscribe" then st
  else if strStartsWith m.topic ("orderbook") = true then
    let st1 :=
      if m.type = "snapshot" then
        { st with snapshotCache := mapSet st.snapshotCache (upstreamKey m.topic) m }
      else st
    broadcast st1 m
  else st

/-- Model of `BybitProxy.handleClientMessage`: answer pings; on subscribe requests,
forward to `subscribeToSymbols`, immediately send any cached snapshot for
each requested symbol, then acknowledge; on unsubscribe requests forward to
`unsubscribeFromSymbols`. -/
def handleClientMessage (st : ProxyS) (cid : Nat) (d : ClientMsg) : ProxyS :=
  if d.type = "ping" then sendToClient st cid OutMsg.pong
  else
    let orderDepth := if d.depth ≠ 0 then d.depth else 50
    match d.symbols with
    | some syms =>
      if d.action = "subscribe" then
        let st1 := subscribeToSymbols st syms orderDepth
        let st2 := syms.foldl (fun acc symbol =>
            match mapGet acc.snapshotCache (subKey symbol orderDepth) with
            | some snap => sendToClient acc cid (OutMsg.data snap)
            | none => acc) st1
        sendToClient st2 cid (OutMsg.subscribed syms orderDepth)
      else if d.action = "unsubscribe" then unsubscribeFromSymbols st syms orderDepth
      else st
    | none => st

/-- One serialized event hitting the proxy's event loop. -/
inductive PEvent
  | fromBybit (m : BybitMsg)
  | fromClient (cid : Nat) (d : ClientMsg)
  deriving DecidableEq, Repr

/-- Dispatch of one event. -/
def pstep (st : ProxyS) (e : PEvent) : ProxyS :=
  match e with
  | .fromBybit m => handleBybitMessage st m
  | .fromClient cid d => handleClientMessage st cid d

/-- Process a list of events in arrival order. -/
def prun (st : ProxyS) (es : List PEvent) : ProxyS :=
  es.foldl pstep st

/-- Conditions on one message under which the book invariant is preserved:
snapshots must themselves carry well-formed sides, no message may carry the
restart sentinel update id, and all prices must come from the pool `P`. -/
def MsgOk (depth : Nat) (P : List String) : Msg → Prop
  | .snapshot d _ => GoodBidSide depth d.b ∧ GoodAskSide depth d.a ∧ d.u ≠ 1
      ∧ (∀ e ∈ d.b, e.1 ∈ P) ∧ (∀ e ∈ d.a, e.1 ∈ P)
  | .delta d _ => d.u ≠ 1 ∧ (∀ e ∈ d.b, e.1 ∈ P) ∧ (∀ e ∈ d.a, e.1 ∈ P)

/-- The inductive invariant carried through a message sequence: the book
invariant, price membership in the pool, and a non-sentinel update id. -/
def HookInv (depth : Nat) (P : List String) (st : OrderBookState) : Prop :=
  BookInv depth st ∧ (∀ e ∈ st.bids, e.1 ∈ P) ∧ (∀ e ∈ st.asks, e.1 ∈ P)
    ∧ st.updateId ≠ 1

/-- Executable check that distinct price strings in `P` have distinct parsed
values, via the integer comparator. -/
def pricesInjCheck (P : List String) : Bool :=
  P.all (fun p => P.all (fun q =>
    !(Dec.le (pfD p) (pfD q) && Dec.le (pfD q) (pfD p)) || p == q))

/-! ## Bridging the integer comparator to rational order -/

theorem tenPow_eq (k : Nat) : tenPow k = (10 : ℤ) ^ k := by
  induction k with
  | zero => rfl
  | succ n ih => rw [tenPow, ih, pow_succ]; ring

theorem Dec.le_iff (a b : Dec) : Dec.le a b = true ↔ a.toRat ≤ b.toRat := by
  have ha : (0 : ℚ) < (10 : ℚ) ^ a.exp := by positivity
  have hb : (0 : ℚ) < (10 : ℚ) ^ b.exp := by positivity
  simp only [Dec.le, tenPow_eq, decide_eq_true_eq, Dec.toRat]
  rw [div_le_div_iff₀ ha hb]
  constructor
  · intro h
    exact_mod_cast h
  · intro h
    exact_mod_cast h

theorem bidLe_iff (x y : Entry) : bidLe x y = true ↔ priceVal y.1 ≤ priceVal x.1 :=
  Dec.le_iff (pfD y.1) (pfD x.1)

theorem askLe_iff (x y : Entry) : askLe x y = true ↔ priceVal x.1 ≤ priceVal y.1 :=
  Dec.le_iff (pfD x.1) (pfD y.1)

theorem bidLe_total (x y : Entry) : bidLe x y = true ∨ bidLe y x = true := by
  rcases le_total (priceVal y.1) (priceVal x.1) with h | h
  · exact Or.inl ((bidLe_iff x y).mpr h)
  · exact Or.inr ((bidLe_iff y x).mpr h)

theorem askLe_total (x y : Entry) : askLe x y = true ∨ askLe y x = true := by
  rcases le_total (priceVal x.1) (priceVal y.1) with h | h
  · exact Or.inl ((askLe_iff x y).mpr h)
  · exact Or.inr ((askLe_iff y x).mpr h)

theorem bidLe_trans (x y z : Entry) (h1 : bidLe x y = true) (h2 : bidLe y z = true) :
    bidLe x z = true :=
  (bidLe_iff x z).mpr (le_trans ((bidLe_iff y z).mp h2) ((bidLe_iff x y).mp h1))

theorem askLe_trans (x y z : Entry) (h1 : askLe x y = true) (h2 : askLe y z = true) :
    askLe x z = true :=
  (askLe_iff x z).mpr (le_trans ((askLe_iff x y).mp h1) ((askLe_iff y z).mp h2))

/-! ## Generic lemmas about the stable sort -/

theorem insSorted_nil (le : Entry → Entry → Bool) (x : Entry) :
    insSorted le x [] = [x] := rfl

theorem insSorted_cons (le : Entry → Entry → Bool) (x y : Entry) (ys : List Entry) :
    insSorted le x (y :: ys)
      = if le y x then y :: insSorted le x ys else x :: y :: ys := rfl

theorem mem_insSorted (le : Entry → Entry → Bool) (x a : Entry) (l : List Entry) :
    a ∈ insSorted le x l ↔ a = x ∨ a ∈ l := by
  induction l with
  | nil => simp [insSorted_nil]
  | cons y ys ih =>
    rw [insSorted_cons]
    by_cases h : le y x = true
    · rw [if_pos h]
      simp only [List.mem_cons, ih] <;> tauto
    · rw [if_neg h]
      simp only [List.mem_cons] <;> tauto

theorem insSorted_perm (le : Entry → Entry → Bool) (x : Entry) (l : List Entry) :
    (insSorted le x l).Perm (x :: l) := by
  induction l with
  | nil => exact List.Perm.refl _
  | cons y ys ih =>
    rw [insSorted_cons]
    by_cases h : le y x = true
    · rw [if_pos h]
      exact (ih.cons y).trans (List.Perm.swap x y ys)
    · rw [if_neg h]

theorem foldl_insSorted_perm (le : Entry → Entry → Bool) (l acc : List Entry) :
    (l.foldl (fun a x => insSorted le x a) acc).Perm (acc ++ l) := by
  induction l generalizing acc with
  | nil => simp
  | cons x xs ih =>
    have h1 := ih (insSorted le x acc)
    have h2 : (insSorted le x acc ++ xs).Perm ((x :: acc) ++ xs) :=
      List.Perm.append_right xs (insSorted_perm le x acc)
    have h3 : ((x :: acc) ++ xs).Perm (acc ++ x :: xs) := by
      simpa using (@List.perm_middle _ x acc xs).symm
    exact (h1.trans h2).trans h3

theorem sortByLe_perm (le : Entry → Entry → Bool) (l : List Entry) :
    (sortByLe le l).Perm l := by
  simpa using foldl_insSorted_perm le l []

theorem mem_sortByLe (le : Entry → Entry → Bool) (a : Entry) (l : List Entry) :
    a ∈ sortByLe le l ↔ a ∈ l :=
  (sortByLe_perm le l).mem_iff

theorem sorted_insSorted (le : Entry → Entry → Bool)
    (htot : ∀ x y, le x y = true ∨ le y x = true)
    (htrans : ∀ x y z, le x y = true → le y z = true → le x z = true)
    (x : Entry) (l : List Entry) (h : SortedBy le l) :
    SortedBy le (insSorted le x l) := by
  induction l with
  | nil => simp [insSorted_nil, SortedBy]
  | cons y ys ih =>
    obtain ⟨hhead, htail⟩ := List.pairwise_cons.mp h
    rw [insSorted_cons]
    by_cases hyx : le y x = true
    · rw [if_pos hyx]
      refine List.pairwise_cons.mpr ⟨?_, ih htail⟩
      intro z hz
      rcases (mem_insSorted le x z ys).mp hz with rfl | hz
      · exact hyx
      · exact hhead z hz
    · rw [if_neg hyx]
      have hxy : le x y = true := (htot x y).resolve_right hyx
      refine List.pairwise_cons.mpr ⟨?_, h⟩
      intro z hz
      rcases List.mem_cons.mp hz with rfl | hz
      · exact hxy
      · exact htrans x y z hxy (hhead z hz)

theorem sorted_foldl_insSorted (le : Entry → Entry → Bool)
    (htot : ∀ x y, le x y = true ∨ le y x = true)
    (htrans : ∀ x y z, le x y = true → le y z = true → le x z = true)
    (l acc : List Entry) (h : SortedBy le acc) :
    SortedBy le (l.foldl (fun a x => insSorted le x a) acc) := by
  induction l generalizing acc with
  | nil => exact h
  | cons x xs ih => exact ih _ (sorted_insSorted le htot htrans x acc h)

theorem sortByLe_sorted (le : Entry → Entry → Bool)
    (htot : ∀ x y, le x y = true ∨ le y x = true)
    (htrans : ∀ x y z, le x y = true → le y z = true → le x z = true)
    (l : List Entry) : SortedBy le (sortByLe le l) :=
  sorted_foldl_insSorted le htot htrans l [] (by simp [SortedBy])

theorem insSorted_of_forall (le : Entry → Entry → Bool) (x : Entry) (l : List Entry)
    (h : ∀ y ∈ l, le y x = true) : insSorted le x l = l ++ [x] := by
  induction l with
  | nil => rfl
  | cons y ys ih =>
    have hy : le y x = true := h y (List.mem_cons_self y ys)
    rw [insSorted_cons, if_pos hy, ih (fun z hz => h z (List.mem_cons_of_mem y hz))]
    rfl

theorem foldl_insSorted_of_sorted (le : Entry → Entry → Bool) (l : List Entry) :
    ∀ acc : List Entry, SortedBy le (acc ++ l) →
      l.foldl (fun a x => insSorted le x a) acc = acc ++ l := by
  induction l with
  | nil => intro acc _; simp
  | cons x xs ih =>
    intro acc h
    have h' := List.pairwise_append.mp h
    have hacc : ∀ y ∈ acc, le y x = true := fun y hy =>
      h'.2.2 y hy x (List.mem_cons_self x xs)
    have step : insSorted le x acc = acc ++ [x] := insSorted_of_forall le x acc hacc
    have hsorted : SortedBy le ((acc ++ [x]) ++ xs) := by
      rw [List.append_assoc, List.singleton_append]
      exact h
    have hres := ih (acc ++ [x]) hsorted
    calc (x :: xs).foldl (fun a x => insSorted le x a) acc
        = xs.foldl (fun a x => insSorted le x a) (insSorted le x acc) := rfl
      _ = xs.foldl (fun a x => insSorted le x a) (acc ++ [x]) := by rw [step]
      _ = (acc ++ [x]) ++ xs := hres
      _ = acc ++ x :: xs := by rw [List.append_assoc, List.singleton_append]

theorem sortByLe_of_sorted (le : Entry → Entry → Bool) (l : List Entry)
    (h : SortedBy le l) : sortByLe le l = l := by
  have := foldl_insSorted_of_sorted le l [] (by simpa using h)
  simpa [sortByLe] using this

theorem insSorted_append_of_le (le : Entry → Entry → Bool) (x : Entry)
    (R acc : List Entry) (h : ∀ r ∈ R, le r x = true) :
    insSorted le x (R ++ acc) = R ++ insSorted le x acc := by
  induction R with
  | nil => rfl
  | cons r rs ih =>
    have hr : le r x = true := h r (List.mem_cons_self r rs)
    have hrs : ∀ z ∈ rs, le z x = true := fun z hz => h z (List.mem_cons_of_mem r hz)
    calc insSorted le x ((r :: rs) ++ acc)
        = insSorted le x (r :: (rs ++ acc)) := rfl
      _ = r :: insSorted le x (rs ++ acc) := by rw [insSorted_cons, if_pos hr]
      _ = r :: (rs ++ insSorted le x acc) := by rw [ih hrs]
      _ = (r :: rs) ++ insSorted le x acc := rfl

theorem foldl_insSorted_append (le : Entry → Entry → Bool) (E : List Entry) :
    ∀ R acc : List Entry, (∀ r ∈ R, ∀ e ∈ E, le r e = true) →
      E.foldl (fun a x => insSorted le x a) (R ++ acc)
        = R ++ E.foldl (fun a x => insSorted le x a) acc := by
  induction E with
  | nil => intro R acc _; simp
  | cons e es ih =>
    intro R acc h
    have he : ∀ r ∈ R, le r e = true := fun r hr => h r hr e (List.mem_cons_self e es)
    have hes : ∀ r ∈ R, ∀ z ∈ es, le r z = true := fun r hr z hz =>
      h r hr z (List.mem_cons_of_mem e hz)
    calc (e :: es).foldl (fun a x => insSorted le x a) (R ++ acc)
        = es.foldl (fun a x => insSorted le x a) (insSorted le e (R ++ acc)) := rfl
      _ = es.foldl (fun a x => insSorted le x a) (R ++ insSorted le e acc) := by
          rw [insSorted_append_of_le le e R acc he]
      _ = R ++ es.foldl (fun a x => insSorted le x a) (insSorted le e acc) :=
          ih R (insSorted le e acc) hes
      _ = R ++ (e :: es).foldl (fun a x => insSorted le x a) acc := rfl

theorem sortByLe_append (le : Entry → Entry → Bool) (R E : List Entry)
    (hR : SortedBy le R) (h : ∀ r ∈ R, ∀ e ∈ E, le r e = true) :
    sortByLe le (R ++ E) = R ++ sortByLe le E := by
  unfold sortByLe
  rw [List.foldl_append]
  have hfix : R.foldl (fun a x => insSorted le x a) [] = R := by
    have := foldl_insSorted_of_sorted le R [] (by simpa using hR)
    simpa using this
  rw [hfix]
  have hres := foldl_insSorted_append le E R [] h
  simpa using hres

/-! ## Lemmas about the JavaScript map model -/

theorem mapKeys_nil {α : Type} : mapKeys ([] : List (String × α)) = [] := rfl

theorem mapKeys_cons {α : Type} (e : String × α) (m : List (String × α)) :
    mapKeys (e :: m) = e.1 :: mapKeys m := rfl

theorem mapKeys_append {α : Type} (m1 m2 : List (String × α)) :
    mapKeys (m1 ++ m2) = mapKeys m1 ++ mapKeys m2 := by
  simp [mapKeys]

theorem mapSet_cons {α : Type} (k' : String) (v' : α) (rest : List (String × α))
    (k : String) (v : α) :
    mapSet ((k', v') :: rest) k v
      = if k' = k then (k, v) :: rest else (k', v') :: mapSet rest k v := rfl

theorem mapKeys_mapSet {α : Type} (m : List (String × α)) (k : String) (v : α) :
    mapKeys (mapSet m k v)
      = if k ∈ mapKeys m then mapKeys m else mapKeys m ++ [k] := by
  induction m with
  | nil => simp [mapSet, mapKeys]
  | cons e rest ih =>
    obtain ⟨k', v'⟩ := e
    by_cases h : k' = k
    · subst h
      rw [mapSet_cons, if_pos rfl, mapKeys_cons, mapKeys_cons]
      rw [if_pos (List.mem_cons_self k' (mapKeys rest))]
    · rw [mapSet_cons, if_neg h, mapKeys_cons, mapKeys_cons, ih]
      by_cases hmem : k ∈ mapKeys rest
      · rw [if_pos hmem, if_pos (List.mem_cons_of_mem k' hmem)]
      · rw [if_neg hmem, if_neg ?_]
        · rfl
        · intro hc
          rcases List.mem_cons.mp hc with hc | hc
          · exact h hc.symm
          · exact hmem hc

theorem nodup_keys_mapSet {α : Type} (m : List (String × α)) (k : String) (v : α)
    (h : (mapKeys m).Nodup) : (mapKeys (mapSet m k v)).Nodup := by
  rw [mapKeys_mapSet]
  by_cases hmem : k ∈ mapKeys m
  · rw [if_pos hmem]; exact h
  · rw [if_neg hmem]
    simp [List.nodup_append, h, hmem]

theorem nodup_keys_mapDelete {α : Type} (m : List (String × α)) (k : String)
    (h : (mapKeys m).Nodup) : (mapKeys (mapDelete m k)).Nodup := by
  have hsub : List.Sublist (mapKeys (mapDelete m k)) (mapKeys m) :=
    (List.filter_sublist m).map Prod.fst
  exact h.sublist hsub

theorem nodup_keys_deltaStep (m : List Entry) (e : Entry)
    (h : (mapKeys m).Nodup) : (mapKeys (deltaStep m e)).Nodup := by
  unfold deltaStep
  by_cases hz : sizeIsZero e.2 = true
  · rw [if_pos hz]; exact nodup_keys_mapDelete m e.1 h
  · rw [if_neg hz]; exact nodup_keys_mapSet m e.1 e.2 h

theorem nodup_keys_deltaApply (es : List Entry) :
    ∀ m : List Entry, (mapKeys m).Nodup → (mapKeys (deltaApply m es)).Nodup := by
  induction es with
  | nil => intro m h; exact h
  | cons e rest ih =>
    intro m h
    exact ih (deltaStep m e) (nodup_keys_deltaStep m e h)

theorem nodup_keys_foldl_mapSet {α : Type} (l : List (String × α)) :
    ∀ acc : List (String × α), (mapKeys acc).Nodup →
      (mapKeys (l.foldl (fun m e => mapSet m e.1 e.2) acc)).Nodup := by
  induction l with
  | nil => intro acc h; exact h
  | cons e rest ih =>
    intro acc h
    exact ih (mapSet acc e.1 e.2) (nodup_keys_mapSet acc e.1 e.2 h)

theorem nodup_keys_jsMapOfList {α : Type} (l : List (String × α)) :
    (mapKeys (jsMapOfList l)).Nodup :=
  nodup_keys_foldl_mapSet l [] (by simp [mapKeys])

theorem mem_mapSet_elim {α : Type} (m : List (String × α)) (k : String) (v : α)
    (x : String × α) (hx : x ∈ mapSet m k v) : x ∈ m ∨ x = (k, v) := by
  induction m with
  | nil => simpa [mapSet] using hx
  | cons e rest ih =>
    obtain ⟨k', v'⟩ := e
    rw [mapSet_cons] at hx
    by_cases h : k' = k
    · rw [if_pos h] at hx
      rcases List.mem_cons.mp hx with rfl | hx
      · exact Or.inr rfl
      · exact Or.inl (List.mem_cons_of_mem _ hx)
    · rw [if_neg h] at hx
      rcases List.mem_cons.mp hx with rfl | hx
      · exact Or.inl (List.mem_cons_self _ _)
      · rcases ih hx with hm | he
        · exact Or.inl (List.mem_cons_of_mem _ hm)
        · exact Or.inr he

theorem mem_mapDelete_elim {α : Type} (m : List (String × α)) (k : String)
    (x : String × α) (hx : x ∈ mapDelete m k) : x ∈ m :=
  List.mem_of_mem_filter hx

theorem mem_deltaApply_elim (es : List Entry) :
    ∀ m x, x ∈ deltaApply m es → x ∈ m ∨ (x ∈ es ∧ sizeIsZero x.2 = false) := by
  induction es with
  | nil => intro m x hx; exact Or.inl hx
  | cons e rest ih =>
    intro m x hx
    rcases ih (deltaStep m e) x hx with hstep | ⟨hrest, hz⟩
    · unfold deltaStep at hstep
      by_cases hz : sizeIsZero e.2 = true
      · rw [if_pos hz] at hstep
        exact Or.inl (mem_mapDelete_elim m e.1 x hstep)
      · rw [if_neg hz] at hstep
        rcases mem_mapSet_elim m e.1 e.2 x hstep with hm | he
        · exact Or.inl hm
        · refine Or.inr ⟨?_, ?_⟩
          · rw [he]; exact List.mem_cons_self _ _
          · rw [he]
            simpa using hz
    · exact Or.inr ⟨List.mem_cons_of_mem e hrest, hz⟩

theorem mem_foldl_mapSet_elim {α : Type} (l : List (String × α)) :
    ∀ acc x, x ∈ l.foldl (fun m e => mapSet m e.1 e.2) acc → x ∈ acc ∨ x ∈ l := by
  induction l with
  | nil => intro acc x hx; exact Or.inl hx
  | cons e rest ih =>
    intro acc x hx
    rcases ih (mapSet acc e.1 e.2) x hx with hstep | hl
    · rcases mem_mapSet_elim acc e.1 e.2 x hstep with hm | he
      · exact Or.inl hm
      · rw [he]
        exact Or.inr (List.mem_cons_self _ _)
    · exact Or.inr (List.mem_cons_of_mem e hl)

theorem mem_jsMapOfList_elim {α : Type} (l : List (String × α)) (x : String × α)
    (hx : x ∈ jsMapOfList l) : x ∈ l := by
  rcases mem_foldl_mapSet_elim l [] x hx with h | h
  · simp at h
  · exact h

theorem mapSet_eq_append_of_not_mem {α : Type} (m : List (String × α)) (k : String)
    (v : α) (h : k ∉ mapKeys m) : mapSet m k v = m ++ [(k, v)] := by
  induction m with
  | nil => rfl
  | cons e rest ih =>
    obtain ⟨k', v'⟩ := e
    have hne : k' ≠ k := by
      intro hc
      exact h (by rw [mapKeys_cons, hc]; exact List.mem_cons_self _ _)
    rw [mapSet_cons, if_neg hne, ih (fun hc => h (List.mem_cons_of_mem _ hc))]
    rfl

theorem map_id_of_mem {α : Type} (l : List (String × α)) (f : String × α → String × α)
    (h : ∀ x ∈ l, f x = x) : l.map f = l :=
  (List.map_congr_left h).trans (List.map_id l)

theorem mapSet_eq_map_of_mem {α : Type} (m : List (String × α)) (k : String) (v : α)
    (hnd : (mapKeys m).Nodup) (hk : k ∈ mapKeys m) :
    mapSet m k v = m.map (fun x => if x.1 = k then (k, v) else x) := by
  induction m with
  | nil => simp [mapKeys] at hk
  | cons e rest ih =>
    obtain ⟨k', v'⟩ := e
    rw [mapKeys_cons, List.nodup_cons] at hnd
    by_cases h : k' = k
    · subst h
      rw [mapSet_cons, if_pos rfl, List.map_cons]
      have hid : rest.map (fun x => if x.1 = k' then (k', v) else x) = rest := by
        refine map_id_of_mem rest _ ?_
        intro x hx
        have hxk : x.1 ≠ k' := by
          intro hc
          exact hnd.1 (hc ▸ (List.mem_map_of_mem Prod.fst hx : x.1 ∈ mapKeys rest))
        rw [if_neg hxk]
      rw [hid]
      simp
    · rw [mapSet_cons, if_neg h, List.map_cons]
      have hk' : k ∈ mapKeys rest := by
        rcases List.mem_cons.mp hk with hc | hc
        · exact absurd hc.symm h
        · exact hc
      rw [ih hnd.2 hk']
      have hne : ((k', v') : String × α).1 ≠ k := h
      rw [if_neg hne]

theorem foldl_mapSet_eq_append {α : Type} (l : List (String × α)) :
    ∀ acc : List (String × α), (mapKeys (acc ++ l)).Nodup →
      l.foldl (fun m e => mapSet m e.1 e.2) acc = acc ++ l := by
  induction l with
  | nil => intro acc _; simp
  | cons e rest ih =>
    intro acc h
    rw [mapKeys_append, mapKeys_cons, List.nodup_append] at h
    have hnot : e.1 ∉ mapKeys acc := by
      intro hc
      exact h.2.2 hc (List.mem_cons_self _ _)
    have step : mapSet acc e.1 e.2 = acc ++ [e] := by
      rw [mapSet_eq_append_of_not_mem acc e.1 e.2 hnot]
    have hre : (mapKeys ((acc ++ [e]) ++ rest)).Nodup := by
      rw [List.append_assoc, List.singleton_append, mapKeys_append, mapKeys_cons,
        List.nodup_append]
      exact h
    calc (e :: rest).foldl (fun m x => mapSet m x.1 x.2) acc
        = rest.foldl (fun m x => mapSet m x.1 x.2) (mapSet acc e.1 e.2) := rfl
      _ = rest.foldl (fun m x => mapSet m x.1 x.2) (acc ++ [e]) := by rw [step]
      _ = (acc ++ [e]) ++ rest := ih (acc ++ [e]) hre
      _ = acc ++ e :: rest := by rw [List.append_assoc, List.singleton_append]

theorem jsMapOfList_eq_self {α : Type} (l : List (String × α))
    (h : (mapKeys l).Nodup) : jsMapOfList l = l := by
  have := foldl_mapSet_eq_append l [] (by simpa using h)
  simpa [jsMapOfList] using this

/-! ## Characterization of a purely-upserting delta application -/

theorem updLast_nil (x : Entry) : updLast [] x = x := rfl

theorem updLast_fst (es : List Entry) (x : Entry) : (updLast es x).1 = x.1 := by
  unfold updLast
  cases lastVal? es x.1 with
  | none => rfl
  | some v => rfl

theorem lastVal?_cons_ne (e : Entry) (es : List Entry) (k : String) (h : k ≠ e.1) :
    lastVal? (e :: es) k = lastVal? es k := by
  show (match lastVal? es k with
    | some v => some v
    | none => if e.1 = k then some e.2 else none) = lastVal? es k
  cases lastVal? es k with
  | none => exact if_neg (fun hc => h hc.symm)
  | some v => rfl

theorem lastVal?_cons_self (e : Entry) (es : List Entry) :
    lastVal? (e :: es) e.1 = some ((lastVal? es e.1).getD e.2) := by
  show (match lastVal? es e.1 with
    | some v => some v
    | none => if e.1 = e.1 then some e.2 else none) = _
  cases lastVal? es e.1 with
  | none => simp
  | some v => rfl

theorem updLast_cons_ne (e : Entry) (es : List Entry) (x : Entry) (h : x.1 ≠ e.1) :
    updLast (e :: es) x = updLast es x := by
  unfold updLast
  rw [lastVal?_cons_ne e es x.1 h]

theorem updLast_cons_eq (e : Entry) (es : List Entry) (x : Entry) (h : x.1 = e.1) :
    updLast (e :: es) x = updLast es (e.1, e.2) := by
  unfold updLast
  rw [h, lastVal?_cons_self]
  cases hv : lastVal? es e.1 with
  | none => simp [hv]
  | some v => simp [hv]

theorem lastVal?_mem (es : List Entry) (k : String) (v : String)
    (h : lastVal? es k = some v) : k ∈ es.map Prod.fst := by
  induction es with
  | nil => simp [lastVal?] at h
  | cons e rest ih =>
    by_cases hk : k = e.1
    · rw [hk]
      exact List.mem_cons_self _ _
    · rw [lastVal?_cons_ne e rest k hk] at h
      exact List.mem_cons_of_mem _ (ih h)

theorem lastVal?_isSome_of_mem (es : List Entry) (k : String)
    (h : k ∈ es.map Prod.fst) : (lastVal? es k).isSome = true := by
  induction es with
  | nil => simp at h
  | cons e rest ih =>
    by_cases hk : k = e.1
    · subst hk
      rw [lastVal?_cons_self]
      rfl
    · rw [lastVal?_cons_ne e rest k hk]
      rcases List.mem_cons.mp h with hc | hc
      · exact absurd hc hk
      · exact ih hc

theorem firstDedup_cons (k : String) (ks : List String) :
    firstDedup (k :: ks) = k :: (firstDedup ks).filter (fun x => decide (¬ x = k)) := rfl

theorem mem_firstDedup (l : List String) (k : String) : k ∈ firstDedup l ↔ k ∈ l := by
  induction l with
  | nil => simp [firstDedup]
  | cons x xs ih =>
    rw [firstDedup_cons]
    constructor
    · intro h
      rcases List.mem_cons.mp h with rfl | h
      · exact List.mem_cons_self _ _
      · exact List.mem_cons_of_mem _ (ih.mp (List.mem_of_mem_filter h))
    · intro h
      rcases List.mem_cons.mp h with rfl | h
      · exact List.mem_cons_self _ _
      · by_cases hk : k = x
        · rw [hk]; exact List.mem_cons_self _ _
        · refine List.mem_cons_of_mem _ (List.mem_filter.mpr ⟨ih.mpr h, by simpa using hk⟩)

theorem newTail_nil (m : List Entry) : newTail m [] = [] := rfl

theorem deltaApply_char (es : List Entry) :
    ∀ m : List Entry, (∀ e ∈ es, sizeIsZero e.2 = false) → (mapKeys m).Nodup →
      deltaApply m es = m.map (updLast es) ++ newTail m es := by
  induction es with
  | nil =>
    intro m _ _
    rw [newTail_nil, List.append_nil]
    exact (map_id_of_mem m _ (fun x _ => updLast_nil x)).symm
  | cons e es ih =>
    intro m hz hnd
    have hze : sizeIsZero e.2 = false := hz e (List.mem_cons_self e es)
    have hzes : ∀ x ∈ es, sizeIsZero x.2 = false := fun x hx =>
      hz x (List.mem_cons_of_mem e hx)
    have hstep : deltaApply m (e :: es) = deltaApply (mapSet m e.1 e.2) es := by
      show deltaApply (deltaStep m e) es = _
      unfold deltaStep
      rw [if_neg (by simp [hze])]
    rw [hstep]
    by_cases hk : e.1 ∈ mapKeys m
    · -- the written key is updated in place
      have hset : mapSet m e.1 e.2 = m.map (fun x => if x.1 = e.1 then (e.1, e.2) else x) :=
        mapSet_eq_map_of_mem m e.1 e.2 hnd hk
      have hkeys : mapKeys (mapSet m e.1 e.2) = mapKeys m := by
        rw [mapKeys_mapSet, if_pos hk]
      have hnd' : (mapKeys (mapSet m e.1 e.2)).Nodup := by rw [hkeys]; exact hnd
      rw [ih (mapSet m e.1 e.2) hzes hnd']
      have hmap : (mapSet m e.1 e.2).map (updLast es) = m.map (updLast (e :: es)) := by
        rw [hset, List.map_map]
        refine List.map_congr_left ?_
        intro x _
        by_cases hx : x.1 = e.1
        · show updLast es (if x.1 = e.1 then (e.1, e.2) else x) = _
          rw [if_pos hx, (updLast_cons_eq e es x hx).symm]
        · show updLast es (if x.1 = e.1 then (e.1, e.2) else x) = _
          rw [if_neg hx, (updLast_cons_ne e es x hx).symm]
      have htail : newTail (mapSet m e.1 e.2) es = newTail m (e :: es) := by
        unfold newTail
        rw [hkeys, List.map_cons, firstDedup_cons]
        rw [List.filter_cons]
        have hnotP : (decide (¬ e.1 ∈ mapKeys m)) = false := by simp [hk]
        rw [hnotP]
        simp only [Bool.false_eq_true, if_false]
        rw [List.filter_filter]
        have hfilter :
            (firstDedup (es.map Prod.fst)).filter
                (fun a => decide (¬ a ∈ mapKeys m) && decide (¬ a = e.1))
              = (firstDedup (es.map Prod.fst)).filter (fun a => decide (¬ a ∈ mapKeys m)) := by
          refine List.filter_congr ?_
          intro k _
          by_cases hkm : k ∈ mapKeys m
          · simp [hkm]
          · have : k ≠ e.1 := fun hc => hkm (hc ▸ hk)
            simp [hkm, this]
        rw [hfilter]
        refine List.map_congr_left ?_
        intro k hmem
        have hkm : ¬ k ∈ mapKeys m := by
          have := List.of_mem_filter hmem
          simpa using this
        have hke : k ≠ e.1 := fun hc => hkm (hc ▸ hk)
        rw [lastVal?_cons_ne e es k hke]
      rw [hmap, htail]
    · -- the written key is appended
      have hset : mapSet m e.1 e.2 = m ++ [(e.1, e.2)] :=
        mapSet_eq_append_of_not_mem m e.1 e.2 hk
      have hkeys : mapKeys (mapSet m e.1 e.2) = mapKeys m ++ [e.1] := by
        rw [mapKeys_mapSet, if_neg hk]
      have hnd' : (mapKeys (mapSet m e.1 e.2)).Nodup := by
        rw [hkeys]
        simp [List.nodup_append, hnd, hk]
      rw [ih (mapSet m e.1 e.2) hzes hnd']
      have hmap : (mapSet m e.1 e.2).map (updLast es)
          = m.map (updLast (e :: es)) ++ [updLast es (e.1, e.2)] := by
        rw [hset, List.map_append, List.map_cons, List.map_nil]
        congr 1
        refine List.map_congr_left ?_
        intro x hx
        have hxk : x.1 ≠ e.1 := by
          intro hc
          exact hk (hc ▸ (List.mem_map_of_mem Prod.fst hx : x.1 ∈ mapKeys m))
        exact (updLast_cons_ne e es x hxk).symm
      have htail : [updLast es (e.1, e.2)] ++ newTail (mapSet m e.1 e.2) es
          = newTail m (e :: es) := by
        unfold newTail
        rw [hkeys, List.map_cons, firstDedup_cons, List.filter_cons]
        have hP : (decide (¬ e.1 ∈ mapKeys m)) = true := by simp [hk]
        rw [hP, if_pos rfl, List.map_cons, List.singleton_append]
        congr 1
        · rw [lastVal?_cons_self]
          unfold updLast
          cases hv : lastVal? es e.1 with
          | none => simp [hv]
          | some v => simp [hv]
        · rw [List.filter_filter]
          have hfilter :
              (firstDedup (es.map Prod.fst)).filter
                  (fun a => decide (¬ a ∈ mapKeys m) && decide (¬ a = e.1))
                = (firstDedup (es.map Prod.fst)).filter
                    (fun a => decide (¬ a ∈ mapKeys m ++ [e.1])) := by
            refine List.filter_congr ?_
            intro k _
            by_cases hke : k = e.1
            · simp [hke]
            · by_cases hkm : k ∈ mapKeys m
              · simp [hke, hkm]
              · simp [hke, hkm]
          rw [hfilter]
          refine List.map_congr_left ?_
          intro k hmem
          have hkin : ¬ k ∈ mapKeys m ++ [e.1] := by
            have := List.of_mem_filter hmem
            simpa using this
          have hke : k ≠ e.1 := by
            intro hc
            exact hkin (by rw [hc]; simp)
          rw [lastVal?_cons_ne e es k hke]
      rw [hmap, List.append_assoc, htail]

theorem mem_newTail_elim (m es : List Entry) (y : Entry) (hy : y ∈ newTail m es) :
    y.1 ∉ mapKeys m ∧ y.1 ∈ es.map Prod.fst ∧ y = (y.1, (lastVal? es y.1).getD "") := by
  unfold newTail at hy
  obtain ⟨k, hk, rfl⟩ := List.mem_map.mp hy
  have hk1 := List.mem_of_mem_filter hk
  have hk2 : ¬ k ∈ mapKeys m := by
    have := List.of_mem_filter hk
    simpa using this
  exact ⟨hk2, (mem_firstDedup _ k).mp hk1, rfl⟩

theorem deltaApply_value (es m : List Entry)
    (hz : ∀ e ∈ es, sizeIsZero e.2 = false) (hnd : (mapKeys m).Nodup)
    (x : Entry) (hx : x ∈ deltaApply m es) (hk : x.1 ∈ es.map Prod.fst) :
    lastVal? es x.1 = some x.2 := by
  rw [deltaApply_char es m hz hnd] at hx
  rcases List.mem_append.mp hx with hx | hx
  · obtain ⟨y, hy, hxy⟩ := List.mem_map.mp hx
    have hfst : x.1 = y.1 := by rw [← hxy]; exact updLast_fst es y
    have hsome : (lastVal? es y.1).isSome = true :=
      lastVal?_isSome_of_mem es y.1 (hfst ▸ hk)
    obtain ⟨v, hv⟩ := Option.isSome_iff_exists.mp hsome
    have hxv : x = (y.1, v) := by
      rw [← hxy]
      unfold updLast
      rw [hv]
    rw [hfst, hv, hxv]
  · obtain ⟨hnot, hmem, hform⟩ := mem_newTail_elim m es x hx
    have hsome : (lastVal? es x.1).isSome = true := lastVal?_isSome_of_mem es x.1 hmem
    obtain ⟨v, hv⟩ := Option.isSome_iff_exists.mp hsome
    rw [hv]
    have hx2 : x.2 = v := by
      conv_lhs => rw [hform]
      simp [hv]
    rw [hx2]

theorem deltaApply_mem_of_key (es m : List Entry)
    (hz : ∀ e ∈ es, sizeIsZero e.2 = false) (hnd : (mapKeys m).Nodup)
    (k : String) (hk : k ∈ es.map Prod.fst) :
    (k, (lastVal? es k).getD "") ∈ deltaApply m es := by
  rw [deltaApply_char es m hz hnd]
  by_cases hkm : k ∈ mapKeys m
  · refine List.mem_append.mpr (Or.inl ?_)
    obtain ⟨y, hy, hyk⟩ := List.mem_map.mp (show k ∈ m.map Prod.fst from hkm)
    have hsome : (lastVal? es k).isSome = true := lastVal?_isSome_of_mem es k hk
    obtain ⟨v, hv⟩ := Option.isSome_iff_exists.mp hsome
    have : updLast es y = (k, (lastVal? es k).getD "") := by
      unfold updLast
      rw [hyk, hv]
      simp [hv]
    exact this ▸ List.mem_map_of_mem (updLast es) hy
  · refine List.mem_append.mpr (Or.inr ?_)
    unfold newTail
    refine List.mem_map_of_mem _ ?_
    refine List.mem_filter.mpr ⟨(mem_firstDedup _ k).mpr hk, by simpa using hkm⟩

theorem updateSide_empty (le : Entry → Entry → Bool) (depth : Nat) (old : List Entry) :
    updateSide le depth old [] = old := rfl

theorem updateSide_idem (le : Entry → Entry → Bool)
    (htot : ∀ x y, le x y = true ∨ le y x = true)
    (htrans : ∀ x y z, le x y = true → le y z = true → le x z = true)
    (depth : Nat) (old es : List Entry)
    (hz : ∀ e ∈ es, sizeIsZero e.2 = false) :
    updateSide le depth (updateSide le depth old es) es = updateSide le depth old es := by
  by_cases hes : es.isEmpty = true
  · unfold updateSide
    rw [if_pos hes, if_pos hes]
  · have hndm : (mapKeys (jsMapOfList old)).Nodup := nodup_keys_jsMapOfList old
    set M := deltaApply (jsMapOfList old) es with hM
    have hndM : (mapKeys M).Nodup := nodup_keys_deltaApply es _ hndm
    set S := sortByLe le M with hS
    have hperm : S.Perm M := sortByLe_perm le M
    have hkeysperm : (mapKeys S).Perm (mapKeys M) := hperm.map Prod.fst
    have hndS : (mapKeys S).Nodup := (hkeysperm.nodup_iff).mpr hndM
    have hsortS : SortedBy le S := sortByLe_sorted le htot htrans M
    set R := S.take depth with hR
    have hsub : List.Sublist R S := List.take_sublist depth S
    have hndR : (mapKeys R).Nodup := hndS.sublist (hsub.map Prod.fst)
    have hsortR : SortedBy le R := hsortS.sublist hsub
    have hRS : updateSide le depth old es = R := by
      unfold updateSide
      rw [if_neg hes]
    rw [hRS]
    have hmapR : jsMapOfList R = R := jsMapOfList_eq_self R hndR
    have hchar : deltaApply R es = R.map (updLast es) ++ newTail R es :=
      deltaApply_char es R hz hndR
    have hRid : R.map (updLast es) = R := by
      refine map_id_of_mem R _ ?_
      intro x hx
      have hxM : x ∈ M := hperm.mem_iff.mp (hsub.subset hx)
      unfold updLast
      cases hv : lastVal? es x.1 with
      | none => rfl
      | some v =>
        have hkmem : x.1 ∈ es.map Prod.fst := lastVal?_mem es x.1 v hv
        have := deltaApply_value es (jsMapOfList old) hz hndm x hxM hkmem
        rw [hv] at this
        have hv2 : v = x.2 := Option.some.inj this
        rw [hv2]
    have hEprops : ∀ y ∈ newTail R es, y.1 ∉ mapKeys R ∧ y ∈ M := by
      intro y hy
      obtain ⟨hnot, hmem, hform⟩ := mem_newTail_elim R es y hy
      refine ⟨hnot, ?_⟩
      have := deltaApply_mem_of_key es (jsMapOfList old) hz hndm y.1 hmem
      rw [← hform] at this
      exact this
    have hbound : ∀ r ∈ R, ∀ y ∈ newTail R es, le r y = true := by
      intro r hr y hy
      obtain ⟨hnot, hyM⟩ := hEprops y hy
      have hyS : y ∈ S := hperm.mem_iff.mpr hyM
      have hsplit : R ++ S.drop depth = S := List.take_append_drop depth S
      have hyRD : y ∈ R ++ S.drop depth := by rw [hsplit]; exact hyS
      rcases List.mem_append.mp hyRD with hyR | hyD
      · exact absurd (List.mem_map_of_mem Prod.fst hyR) hnot
      · have hpw := List.pairwise_append.mp (by rw [hsplit]; exact hsortS :
          SortedBy le (R ++ S.drop depth))
        exact hpw.2.2 r hr y hyD
    have happ : sortByLe le (deltaApply R es) = R ++ sortByLe le (newTail R es) := by
      rw [hchar, hRid]
      exact sortByLe_append le R (newTail R es) hsortR hbound
    unfold updateSide
    rw [if_neg hes, hmapR, happ]
    by_cases hlen : S.length ≤ depth
    · have hRfull : R = S := List.take_of_length_le hlen
      have hE : newTail R es = [] := by
        rw [List.eq_nil_iff_forall_not_mem]
        intro y hy
        obtain ⟨hnot, hyM⟩ := hEprops y hy
        have hyS : y ∈ S := hperm.mem_iff.mpr hyM
        have : y.1 ∈ mapKeys R := by
          rw [hRfull]
          exact List.mem_map_of_mem Prod.fst hyS
        exact hnot this
      rw [hE]
      show (R ++ sortByLe le []).take depth = R
      have : sortByLe le ([] : List Entry) = [] := rfl
      rw [this, List.append_nil]
      refine List.take_of_length_le ?_
      rw [hRfull]
      exact hlen
    · have hlenR : R.length = depth := by
        rw [hR, List.length_take]
        omega
      exact List.take_left' hlenR

theorem applyDelta_eq_replace (depth : Nat) (d : BookMsg) (cur : OrderBookState)
    (now : Nat) (h : (if d.u ≠ 0 then d.u else cur.updateId) = 1) :
    applyDelta depth d cur now
      = { bids := d.b
          asks := d.a
          timestamp := if d.ts ≠ 0 then d.ts else now
          updateId := 1 } := by
  simp only [applyDelta]
  rw [if_pos h, h]

theorem applyDelta_eq_incr (depth : Nat) (d : BookMsg) (cur : OrderBookState)
    (now : Nat) (h : (if d.u ≠ 0 then d.u else cur.updateId) ≠ 1) :
    applyDelta depth d cur now
      = { bids := updateSide bidLe depth cur.bids d.b
          asks := updateSide askLe depth cur.asks d.a
          timestamp := if d.ts ≠ 0 then d.ts else now
          updateId := if d.u ≠ 0 then d.u else cur.updateId } := by
  simp only [applyDelta]
  rw [if_neg h]

/-- C6: applying the same delta twice in succession — provided its update id
is not the restart sentinel 1 and all its entries carry non-zero sizes —
yields the same bid levels, ask levels and update id as applying it once:
upsert semantics, not additive. -/
theorem C6_duplicate_delta_idempotent (depth : Nat) (d : BookMsg) (B : OrderBookState)
    (now now' : Nat) (hu : d.u ≠ 1)
    (hzb : ∀ e ∈ d.b, sizeIsZero e.2 = false)
    (hza : ∀ e ∈ d.a, sizeIsZero e.2 = false) :
    (applyDelta depth d (applyDelta depth d B now) now').bids
        = (applyDelta depth d B now).bids
      ∧ (applyDelta depth d (applyDelta depth d B now) now').asks
        = (applyDelta depth d B now).asks
      ∧ (applyDelta depth d (applyDelta depth d B now) now').updateId
        = (applyDelta depth d B now).updateId := by
  have huid : ∀ cur now2, (applyDelta depth d cur now2).updateId
      = (if d.u ≠ 0 then d.u else cur.updateId) := by
    intro cur now2
    by_cases hc : (if d.u ≠ 0 then d.u else cur.updateId) = 1
    · rw [applyDelta_eq_replace depth d cur now2 hc, hc]
    · rw [applyDelta_eq_incr depth d cur now2 hc]
  have huid2 : (if d.u ≠ 0 then d.u else (applyDelta depth d B now).updateId)
      = (if d.u ≠ 0 then d.u else B.updateId) := by
    rw [huid B now]
    by_cases hd : d.u ≠ 0
    · rw [if_pos hd, if_pos hd]
    · rw [if_neg hd, if_neg hd]
  by_cases h1 : (if d.u ≠ 0 then d.u else B.updateId) = 1
  · rw [applyDelta_eq_replace depth d (applyDelta depth d B now) now'
        (by rw [huid2]; exact h1)]
    rw [applyDelta_eq_replace depth d B now h1]
    exact ⟨rfl, rfl, rfl⟩
  · rw [applyDelta_eq_incr depth d (applyDelta depth d B now) now'
        (by rw [huid2]; exact h1)]
    rw [applyDelta_eq_incr depth d B now h1]
    refine ⟨?_, ?_, ?_⟩
    · exact updateSide_idem bidLe bidLe_total bidLe_trans depth B.bids d.b hzb
    · exact updateSide_idem askLe askLe_total askLe_trans depth B.asks d.a hza
    · show (if d.u ≠ 0 then d.u else (if d.u ≠ 0 then d.u else B.updateId))
        = (if d.u ≠ 0 then d.u else B.updateId)
      by_cases hd : d.u ≠ 0
      · rw [if_pos hd, if_pos hd]
      · rw [if_neg hd, if_neg hd]

/-- Witness for C6 at a concrete delta and book. -/
theorem C6_witness :
    ((3 : Nat) ≠ 1
      ∧ (∀ e ∈ [(("100" : String), ("5" : String))], sizeIsZero e.2 = false)
      ∧ (∀ e ∈ [(("101" : String), ("7" : String))], sizeIsZero e.2 = false))
    ∧ ((applyDelta 50 ⟨[("100", "5")], [("101", "7")], 3, 0⟩
          (applyDelta 50 ⟨[("100", "5")], [("101", "7")], 3, 0⟩ initialBook 1) 2).bids
        = (applyDelta 50 ⟨[("100", "5")], [("101", "7")], 3, 0⟩ initialBook 1).bids
      ∧ (applyDelta 50 ⟨[("100", "5")], [("101", "7")], 3, 0⟩
          (applyDelta 50 ⟨[("100", "5")], [("101", "7")], 3, 0⟩ initialBook 1) 2).asks
        = (applyDelta 50 ⟨[("100", "5")], [("101", "7")], 3, 0⟩ initialBook 1).asks
      ∧ (applyDelta 50 ⟨[("100", "5")], [("101", "7")], 3, 0⟩
          (applyDelta 50 ⟨[("100", "5")], [("101", "7")], 3, 0⟩ initialBook 1) 2).updateId
        = (applyDelta 50 ⟨[("100", "5")], [("101", "7")], 3, 0⟩ initialBook 1).updateId) :=
  ⟨⟨by decide, by decide, by decide⟩,
    C6_duplicate_delta_idempotent 50 ⟨[("100", "5")], [("101", "7")], 3, 0⟩ initialBook 1 2
      (by decide) (by decide) (by decide)⟩

/-- C7: a delta message carrying the restart sentinel update id 1 is applied
as a full replacement: its bid and ask lists become the entire new book, and
its update id and timestamp overwrite the state's, for every current book. -/
theorem C7_restart_delta_full_replacement (depth : Nat) (d : BookMsg)
    (cur : OrderBookState) (now : Nat) (hu : d.u = 1) :
    (applyDelta depth d cur now).bids = d.b
    ∧ (applyDelta depth d cur now).asks = d.a
    ∧ (applyDelta depth d cur now).updateId = 1
    ∧ (applyDelta depth d cur now).timestamp = (if d.ts ≠ 0 then d.ts else now) := by
  have h1 : (if d.u ≠ 0 then d.u else cur.updateId) = 1 := by
    rw [if_pos (by omega), hu]
  rw [applyDelta_eq_replace depth d cur now h1]
  exact ⟨rfl, rfl, rfl, rfl⟩

/-- Witness for C7 at a concrete delta and book. -/
theorem C7_witness :
    ((⟨[("100", "5")], [("101", "3")], 1, 4⟩ : BookMsg).u = 1)
    ∧ ((applyDelta 50 ⟨[("100", "5")], [("101", "3")], 1, 4⟩
          ⟨[("90", "9")], [("91", "8")], 2, 7⟩ 6).bids = [("100", "5")]
      ∧ (applyDelta 50 ⟨[("100", "5")], [("101", "3")], 1, 4⟩
          ⟨[("90", "9")], [("91", "8")], 2, 7⟩ 6).asks = [("101", "3")]
      ∧ (applyDelta 50 ⟨[("100", "5")], [("101", "3")], 1, 4⟩
          ⟨[("90", "9")], [("91", "8")], 2, 7⟩ 6).updateId = 1
      ∧ (applyDelta 50 ⟨[("100", "5")], [("101", "3")], 1, 4⟩
          ⟨[("90", "9")], [("91", "8")], 2, 7⟩ 6).timestamp
          = (if (4 : Nat) ≠ 0 then 4 else 6)) :=
  ⟨rfl, C7_restart_delta_full_replacement 50 ⟨[("100", "5")], [("101", "3")], 1, 4⟩
    ⟨[("90", "9")], [("91", "8")], 2, 7⟩ 6 rfl⟩

/-- C2 counterexample: `applySnapshot` does not exclude size-0 entries — a
snapshot whose bid list is `[["100","0"]]` yields exactly that bid list, not
the empty list the claim's size-0 exclusion would produce. -/
theorem C2_counterexample :
    (applySnapshot ⟨[("100", "0")], [], 10, 5⟩ 7).bids = [("100", "0")]
    ∧ sizeIsZero ("0") = true
    ∧ ¬ (applySnapshot ⟨[("100", "0")], [], 10, 5⟩ 7).bids
        = ([(("100" : String), ("0" : String))].filter (fun e => !(sizeIsZero e.2))) := by
  refine ⟨rfl, by decide, by decide⟩

/-- C2 amended: for every prior book state, a snapshot message replaces the
book's bids and asks wholesale with exactly the message's levels — size-0
entries retained, not excluded — and sets the update id to the message's `u`
and the timestamp to the message's `ts` (falling back to the clock when `ts`
is absent). -/
theorem C2_applySnapshot_amended (depth : Nat) (st : OrderBookState) (d : BookMsg)
    (now : Nat) :
    (applyMsg depth st (Msg.snapshot d now)).bids = d.b
    ∧ (applyMsg depth st (Msg.snapshot d now)).asks = d.a
    ∧ (applyMsg depth st (Msg.snapshot d now)).updateId = d.u
    ∧ (applyMsg depth st (Msg.snapshot d now)).timestamp
        = (if d.ts ≠ 0 then d.ts else now) :=
  ⟨rfl, rfl, rfl, rfl⟩

/-- C3 counterexample: a delta arriving for a book that has received no
snapshot is not rejected — the hook applies it to the uninitialized book and
the state changes. -/
theorem C3_counterexample :
    handleMessage ("BTCUSDT") 50 false
        ⟨"orderbook.50.BTCUSDT", "delta", ⟨[("100", "2")], [], 5, 3⟩⟩ initialBook 9
      ≠ initialBook
    ∧ (handleMessage ("BTCUSDT") 50 false
        ⟨"orderbook.50.BTCUSDT", "delta", ⟨[("100", "2")], [], 5, 3⟩⟩ initialBook 9).bids
      = [("100", "2")] := by
  refine ⟨by decide, by decide⟩

/-- C3 amended: a delta whose topic matches the hook's symbol and depth and
which arrives before any snapshot is not buffered or dropped: it is applied
as an ordinary incremental update to the uninitialized (empty) book. -/
theorem C3_amended_delta_applied_before_snapshot (symbol topic : String)
    (depth : Nat) (d : BookMsg) (now : Nat)
    (h1 : ¬ topic = "")
    (h2 : strIncludes topic symbol = true)
    (h3 : strIncludes topic ("orderbook." ++ toString depth ++ ".") = true) :
    handleMessage symbol depth false ⟨topic, "delta", d⟩ initialBook now
      = applyDelta depth d initialBook now := by
  unfold handleMessage
  rw [if_neg (by simp)]
  rw [if_neg (by simp [h1, h2, h3])]
  rfl

/-- Witness for C3's amended statement at a concrete topic. -/
theorem C3_amended_witness :
    ((¬ ("orderbook.50.BTCUSDT" : String) = "")
      ∧ strIncludes ("orderbook.50.BTCUSDT") ("BTCUSDT") = true
      ∧ strIncludes ("orderbook.50.BTCUSDT") ("orderbook." ++ toString 50 ++ ".") = true)
    ∧ handleMessage ("BTCUSDT") 50 false
        ⟨"orderbook.50.BTCUSDT", "delta", ⟨[("100", "2")], [], 5, 3⟩⟩ initialBook 9
      = applyDelta 50 ⟨[("100", "2")], [], 5, 3⟩ initialBook 9 :=
  ⟨⟨by decide, by decide, by decide⟩,
    C3_amended_delta_applied_before_snapshot ("BTCUSDT") ("orderbook.50.BTCUSDT") 50
      ⟨[("100", "2")], [], 5, 3⟩ 9 (by decide) (by decide) (by decide)⟩

/-- C5 counterexample: on a book holding more levels than the configured
depth, a `[price, "0"]` delta entry does not remove only that level — the
post-update trim also drops the level `("98", "1")`, whose key differs from
the deleted price. -/
theorem C5_counterexample :
    (applyDelta 1 ⟨[("100", "0")], [], 11, 0⟩
        ⟨[("100", "5"), ("99", "2"), ("98", "1")], [], 10, 10⟩ 0).bids
      = [("99", "2")]
    ∧ ¬ (applyDelta 1 ⟨[("100", "0")], [], 11, 0⟩
        ⟨[("100", "5"), ("99", "2"), ("98", "1")], [], 10, 10⟩ 0).bids
      = [("99", "2"), ("98", "1")] := by
  refine ⟨by decide, by decide⟩

/-- C5 amended: on a book whose bid side is strictly descending and within
the configured depth, a delta consisting of the single bid entry `[p, "0"]`
(with a non-restart update id) removes exactly the level whose string key is
`p` and nothing else, leaving the asks untouched; and the claim's concrete
scenario holds: snapshot `{b:[["100","5"]], a:[["101","3"]], u:10}` followed
by delta `{b:[["100","0"],["99","2"]], u:11}` yields bids `[["99","2"]]`. -/
theorem C5_zero_size_removes_exactly (depth : Nat) (cur : OrderBookState)
    (p : String) (u ts now : Nat)
    (hsorted : StrictBidSorted cur.bids)
    (hlen : cur.bids.length ≤ depth)
    (huid : (if u ≠ 0 then u else cur.updateId) ≠ 1) :
    (applyDelta depth ⟨[(p, "0")], [], u, ts⟩ cur now).bids
        = cur.bids.filter (fun e => e.1 != p)
      ∧ (applyDelta depth ⟨[(p, "0")], [], u, ts⟩ cur now).asks = cur.asks
      ∧ (applyMsgs 50 initialBook
          [Msg.snapshot ⟨[("100", "5")], [("101", "3")], 10, 0⟩ 7,
           Msg.delta ⟨[("100", "0"), ("99", "2")], [], 11, 0⟩ 8]).bids
          = [("99", "2")] := by
  rw [applyDelta_eq_incr depth ⟨[(p, "0")], [], u, ts⟩ cur now huid]
  refine ⟨?_, rfl, by decide⟩
  show updateSide bidLe depth cur.bids [(p, "0")] = cur.bids.filter (fun e => e.1 != p)
  have hnodup : (mapKeys cur.bids).Nodup := by
    show List.Pairwise (fun a b => a ≠ b) (List.map Prod.fst cur.bids)
    rw [List.pairwise_map]
    refine hsorted.imp ?_
    intro a b hlt hc
    rw [hc] at hlt
    exact lt_irrefl _ hlt
  have hbidle : SortedBy bidLe cur.bids := by
    refine hsorted.imp ?_
    intro a b hlt
    exact (bidLe_iff a b).mpr (le_of_lt hlt)
  unfold updateSide
  rw [if_neg (by simp)]
  have hdelta : deltaApply (jsMapOfList cur.bids) [(p, "0")]
      = (jsMapOfList cur.bids).filter (fun e => e.1 != p) := by
    show deltaStep (jsMapOfList cur.bids) (p, "0") = _
    unfold deltaStep
    rw [if_pos (show sizeIsZero ("0") = true by decide)]
    rfl
  rw [hdelta, jsMapOfList_eq_self cur.bids hnodup]
  have hfiltered : SortedBy bidLe (cur.bids.filter (fun e => e.1 != p)) :=
    hbidle.filter _
  rw [sortByLe_of_sorted bidLe _ hfiltered]
  exact List.take_of_length_le (le_trans (List.length_filter_le _ _) hlen)

/-- Witness for C5's amended statement at a concrete one-level book. -/
theorem C5_witness :
    (StrictBidSorted ((⟨[("100", "5")], [("101", "3")], 9, 10⟩ : OrderBookState).bids)
      ∧ ((⟨[("100", "5")], [("101", "3")], 9, 10⟩ : OrderBookState).bids).length ≤ 50
      ∧ ((if (11 : Nat) ≠ 0 then 11
          else (⟨[("100", "5")], [("101", "3")], 9, 10⟩ : OrderBookState).updateId) ≠ 1))
    ∧ ((applyDelta 50 ⟨[("100", "0")], [], 11, 0⟩
          ⟨[("100", "5")], [("101", "3")], 9, 10⟩ 4).bids
        = ((⟨[("100", "5")], [("101", "3")], 9, 10⟩ : OrderBookState).bids).filter
            (fun e => e.1 != "100")
      ∧ (applyDelta 50 ⟨[("100", "0")], [], 11, 0⟩
          ⟨[("100", "5")], [("101", "3")], 9, 10⟩ 4).asks
        = (⟨[("100", "5")], [("101", "3")], 9, 10⟩ : OrderBookState).asks
      ∧ (applyMsgs 50 initialBook
          [Msg.snapshot ⟨[("100", "5")], [("101", "3")], 10, 0⟩ 7,
           Msg.delta ⟨[("100", "0"), ("99", "2")], [], 11, 0⟩ 8]).bids
          = [("99", "2")]) :=
  ⟨⟨List.pairwise_singleton _ _, by decide, by decide⟩,
    C5_zero_size_removes_exactly 50 ⟨[("100", "5")], [("101", "3")], 9, 10⟩ ("100") 11 0 4
      (List.pairwise_singleton _ _) (by decide) (by decide)⟩

/-- C9: the `useOrderBook` and `useOrderBookAuto` delta implementations
compute identical bid levels, ask levels and update id on every input when
given the same depth. -/
theorem C9_applyDelta_implementations_agree (depth : Nat) (d : BookMsg)
    (cur : OrderBookState) (now : Nat) :
    (applyDeltaAuto depth d cur now).bids = (applyDelta depth d cur now).bids
    ∧ (applyDeltaAuto depth d cur now).asks = (applyDelta depth d cur now).asks
    ∧ (applyDeltaAuto depth d cur now).updateId = (applyDelta depth d cur now).updateId :=
  ⟨rfl, rfl, rfl⟩

/-! ## The order-book invariant -/

theorem priceVal_eq_iff (p q : String) :
    priceVal p = priceVal q
      ↔ (Dec.le (pfD p) (pfD q) && Dec.le (pfD q) (pfD p)) = true := by
  rw [Bool.and_eq_true, Dec.le_iff, Dec.le_iff]
  constructor
  · intro h
    exact ⟨le_of_eq h, le_of_eq h.symm⟩
  · intro h
    exact le_antisymm h.1 h.2

theorem pricesInj_of_check (P : List String) (h : pricesInjCheck P = true) :
    PricesInj P := by
  intro p hp q hq heq
  have h1 := List.all_eq_true.mp h p hp
  have h2 := List.all_eq_true.mp h1 q hq
  by_cases hbeq : (p == q) = true
  · exact eq_of_beq hbeq
  · exfalso
    rw [priceVal_eq_iff] at heq
    simp [hbeq, heq] at h2

theorem strict_bid_of_sorted (P : List String) (hinj : PricesInj P)
    (l : List Entry) (hs : SortedBy bidLe l) (hnd : (mapKeys l).Nodup)
    (hmem : ∀ e ∈ l, e.1 ∈ P) : StrictBidSorted l := by
  have hne : l.Pairwise (fun x y => x.1 ≠ y.1) := by
    have hpw : List.Pairwise (fun a b => a ≠ b) (List.map Prod.fst l) := hnd
    rwa [List.pairwise_map] at hpw
  have hand := hs.and hne
  refine List.Pairwise.imp_of_mem ?_ hand
  intro a b ha hb hab
  have h1 : priceVal b.1 ≤ priceVal a.1 := (bidLe_iff a b).mp hab.1
  refine lt_of_le_of_ne h1 ?_
  intro heq
  exact hab.2 (hinj a.1 (hmem a ha) b.1 (hmem b hb) heq.symm)

theorem strict_ask_of_sorted (P : List String) (hinj : PricesInj P)
    (l : List Entry) (hs : SortedBy askLe l) (hnd : (mapKeys l).Nodup)
    (hmem : ∀ e ∈ l, e.1 ∈ P) : StrictAskSorted l := by
  have hne : l.Pairwise (fun x y => x.1 ≠ y.1) := by
    have hpw : List.Pairwise (fun a b => a ≠ b) (List.map Prod.fst l) := hnd
    rwa [List.pairwise_map] at hpw
  have hand := hs.and hne
  refine List.Pairwise.imp_of_mem ?_ hand
  intro a b ha hb hab
  have h1 : priceVal a.1 ≤ priceVal b.1 := (askLe_iff a b).mp hab.1
  refine lt_of_le_of_ne h1 ?_
  intro heq
  exact hab.2 (hinj a.1 (hmem a ha) b.1 (hmem b hb) heq)

theorem updateSide_good (le : Entry → Entry → Bool) (lt : Entry → Entry → Prop)
    (htot : ∀ x y, le x y = true ∨ le y x = true)
    (htrans : ∀ x y z, le x y = true → le y z = true → le x z = true)
    (P : List String)
    (hstrict : ∀ l : List Entry, SortedBy le l → (mapKeys l).Nodup →
      (∀ e ∈ l, e.1 ∈ P) → l.Pairwise lt)
    (depth : Nat) (old es : List Entry)
    (hnz : NoZeroSize old) (hlen : old.length ≤ depth) (hsort : old.Pairwise lt)
    (holdP : ∀ e ∈ old, e.1 ∈ P) (hesP : ∀ x ∈ es, x.1 ∈ P) :
    (NoZeroSize (updateSide le depth old es)
      ∧ (updateSide le depth old es).length ≤ depth
      ∧ (updateSide le depth old es).Pairwise lt)
    ∧ ∀ e ∈ updateSide le depth old es, e.1 ∈ P := by
  by_cases hes : es.isEmpty = true
  · unfold updateSide
    rw [if_pos hes]
    exact ⟨⟨hnz, hlen, hsort⟩, holdP⟩
  · unfold updateSide
    rw [if_neg hes]
    have hndM : (mapKeys (deltaApply (jsMapOfList old) es)).Nodup :=
      nodup_keys_deltaApply es _ (nodup_keys_jsMapOfList old)
    have hprov : ∀ x ∈ deltaApply (jsMapOfList old) es,
        x ∈ old ∨ (x ∈ es ∧ sizeIsZero x.2 = false) := by
      intro x hx
      rcases mem_deltaApply_elim es (jsMapOfList old) x hx with h | h
      · exact Or.inl (mem_jsMapOfList_elim old x h)
      · exact Or.inr h
    have hsubM : ∀ x ∈ (sortByLe le (deltaApply (jsMapOfList old) es)).take depth,
        x ∈ deltaApply (jsMapOfList old) es := fun x hx =>
      (mem_sortByLe le x _).mp ((List.take_sublist depth _).subset hx)
    have hmemP : ∀ e ∈ (sortByLe le (deltaApply (jsMapOfList old) es)).take depth,
        e.1 ∈ P := by
      intro e he
      rcases hprov e (hsubM e he) with h | h
      · exact holdP e h
      · exact hesP e h.1
    refine ⟨⟨?_, ?_, ?_⟩, hmemP⟩
    · intro e he
      rcases hprov e (hsubM e he) with h | h
      · exact hnz e h
      · exact h.2
    · exact List.length_take_le depth _
    · have hsorted : SortedBy le ((sortByLe le (deltaApply (jsMapOfList old) es)).take depth) :=
        (sortByLe_sorted le htot htrans _).sublist (List.take_sublist depth _)
      have hndS : (mapKeys (sortByLe le (deltaApply (jsMapOfList old) es))).Nodup :=
        ((sortByLe_perm le _).map Prod.fst).nodup_iff.mpr hndM
      have hndR : (mapKeys ((sortByLe le (deltaApply (jsMapOfList old) es)).take depth)).Nodup :=
        hndS.sublist ((List.take_sublist depth _).map Prod.fst)
      exact hstrict _ hsorted hndR hmemP

theorem applyMsg_preserves_inv (depth : Nat) (P : List String) (hinj : PricesInj P)
    (st : OrderBookState) (m : Msg) (hst : HookInv depth P st)
    (hm : MsgOk depth P m) : HookInv depth P (applyMsg depth st m) := by
  obtain ⟨⟨hbid, hask⟩, hbP, haP, huid⟩ := hst
  cases m with
  | snapshot d now =>
    obtain ⟨hgb, hga, hu, hdbP, hdaP⟩ := hm
    exact ⟨⟨hgb, hga⟩, hdbP, hdaP, hu⟩
  | delta d now =>
    obtain ⟨hu, hdbP, hdaP⟩ := hm
    have hcond : (if d.u ≠ 0 then d.u else st.updateId) ≠ 1 := by
      by_cases hd : d.u ≠ 0
      · rw [if_pos hd]; exact hu
      · rw [if_neg hd]; exact huid
    show HookInv depth P (applyDelta depth d st now)
    rw [applyDelta_eq_incr depth d st now hcond]
    obtain ⟨hnzb, hlenb, hsortb⟩ := hbid
    obtain ⟨hnza, hlena, hsorta⟩ := hask
    have hb := updateSide_good bidLe _ bidLe_total bidLe_trans P
      (strict_bid_of_sorted P hinj) depth st.bids d.b hnzb hlenb hsortb hbP hdbP
    have ha := updateSide_good askLe _ askLe_total askLe_trans P
      (strict_ask_of_sorted P hinj) depth st.asks d.a hnza hlena hsorta haP hdaP
    exact ⟨⟨hb.1, ha.1⟩, hb.2, ha.2, hcond⟩

theorem applyMsgs_inv (depth : Nat) (P : List String) (hinj : PricesInj P)
    (ms : List Msg) :
    ∀ st, (∀ m ∈ ms, MsgOk depth P m) → HookInv depth P st →
      HookInv depth P (applyMsgs depth st ms) := by
  induction ms with
  | nil => intro st _ hst; exact hst
  | cons m rest ih =>
    intro st hms hst
    exact ih (applyMsg depth st m)
      (fun x hx => hms x (List.mem_cons_of_mem m hx))
      (applyMsg_preserves_inv depth P hinj st m hst (hms m (List.mem_cons_self m rest)))

/-- C1 counterexample: a single applied snapshot message carrying a size-0
level leaves that zero-size level in the book, violating the claimed
invariant. -/
theorem C1_counterexample :
    ¬ NoZeroSize ((applyMsgs 50 initialBook
        [Msg.snapshot ⟨[("100", "0")], [], 10, 5⟩ 7]).bids) := by
  decide

/-- C1 amended: starting from the uninitialized book, if every snapshot in
the sequence itself satisfies the invariant sides (no zero sizes, within
depth, strictly sorted), no message carries the restart sentinel update id 1,
and all price strings are drawn from a pool in which distinct strings parse
to distinct values, then after the whole sequence the book has no zero-size
entries, at most `depth` levels per side, strictly descending bids and
strictly ascending asks by parsed price. -/
theorem C1_invariant_amended (depth : Nat) (P : List String) (ms : List Msg)
    (hinj : PricesInj P) (hms : ∀ m ∈ ms, MsgOk depth P m) :
    BookInv depth (applyMsgs depth initialBook ms) :=
  (applyMsgs_inv depth P hinj ms initialBook hms
    ⟨⟨⟨fun e he => absurd he (List.not_mem_nil e), by simp [initialBook],
        List.Pairwise.nil⟩,
      ⟨fun e he => absurd he (List.not_mem_nil e), by simp [initialBook],
        List.Pairwise.nil⟩⟩,
      fun e he => absurd he (List.not_mem_nil e),
      fun e he => absurd he (List.not_mem_nil e),
      by simp [initialBook]⟩).1

/-- Witness for C1's amended statement on a concrete two-message sequence. -/
theorem C1_witness :
    (PricesInj ["100", "101", "99"]
      ∧ (∀ m ∈ [Msg.snapshot ⟨[("100", "5")], [("101", "3")], 10, 0⟩ 7,
            Msg.delta ⟨[("100", "0"), ("99", "2")], [], 11, 0⟩ 8],
          MsgOk 50 ["100", "101", "99"] m))
    ∧ BookInv 50 (applyMsgs 50 initialBook
        [Msg.snapshot ⟨[("100", "5")], [("101", "3")], 10, 0⟩ 7,
         Msg.delta ⟨[("100", "0"), ("99", "2")], [], 11, 0⟩ 8]) := by
  have hinj : PricesInj ["100", "101", "99"] :=
    pricesInj_of_check _ (by decide)
  have hms : ∀ m ∈ [Msg.snapshot ⟨[("100", "5")], [("101", "3")], 10, 0⟩ 7,
      Msg.delta ⟨[("100", "0"), ("99", "2")], [], 11, 0⟩ 8],
      MsgOk 50 ["100", "101", "99"] m := by
    intro m hm
    rcases List.mem_cons.mp hm with rfl | hm
    · exact ⟨⟨by decide, by decide, List.pairwise_singleton _ _⟩,
        ⟨by decide, by decide, List.pairwise_singleton _ _⟩,
        by decide, by decide, by decide⟩
    · rcases List.mem_cons.mp hm with rfl | hm
      · exact ⟨by decide, by decide, by decide⟩
      · exact absurd hm (List.not_mem_nil m)
  exact ⟨⟨hinj, hms⟩, C1_invariant_amended 50 ["100", "101", "99"] _ hinj hms⟩

/-! ## Lemmas about the proxy state machine -/

theorem clientsSent_cons (c : Client) (cs : List Client) (cid : Nat) :
    clientsSent (c :: cs) cid = if c.cid = cid then c.sent else clientsSent cs cid := rfl

theorem hasClient_cons (c : Client) (cs : List Client) (cid : Nat) :
    hasClient (c :: cs) cid = (c.cid == cid || hasClient cs cid) := rfl

theorem clientsSent_map_mono (cs : List Client) (cid : Nat) (f : Client → Client)
    (hf : ∀ c, (f c).cid = c.cid ∧ ∃ t, (f c).sent = c.sent ++ t) :
    ∃ t, clientsSent (cs.map f) cid = clientsSent cs cid ++ t := by
  induction cs with
  | nil => exact ⟨[], rfl⟩
  | cons c rest ih =>
    rw [List.map_cons, clientsSent_cons, clientsSent_cons]
    by_cases h : c.cid = cid
    · obtain ⟨t, ht⟩ := (hf c).2
      refine ⟨t, ?_⟩
      rw [if_pos ((hf c).1.trans h), if_pos h, ht]
    · obtain ⟨t, ht⟩ := ih
      refine ⟨t, ?_⟩
      rw [if_neg (fun hc => h (((hf c).1.symm.trans hc))), if_neg h]
      exact ht

theorem hasClient_map (cs : List Client) (cid : Nat) (f : Client → Client)
    (hf : ∀ c, (f c).cid = c.cid) :
    hasClient (cs.map f) cid = hasClient cs cid := by
  induction cs with
  | nil => rfl
  | cons c rest ih =>
    rw [List.map_cons, hasClient_cons, hasClient_cons, hf c, ih]

theorem broadcast_clients_mono (st : ProxyS) (m : BybitMsg) (cid : Nat) :
    ∃ t, clientSent (broadcast st m) cid = clientSent st cid ++ t := by
  refine clientsSent_map_mono st.clients cid _ ?_
  intro c
  by_cases h : c.readyOpen = true
  · refine ⟨by rw [if_pos h], ?_⟩
    exact ⟨[OutMsg.data m], by rw [if_pos h]⟩
  · refine ⟨by rw [if_neg h], ?_⟩
    exact ⟨[], by rw [if_neg h, List.append_nil]⟩

theorem sendToClient_mono (st : ProxyS) (cid' : Nat) (o : OutMsg) (cid : Nat) :
    ∃ t, clientSent (sendToClient st cid' o) cid = clientSent st cid ++ t := by
  refine clientsSent_map_mono st.clients cid _ ?_
  intro c
  by_cases h : c.cid = cid'
  · refine ⟨by rw [if_pos h], ?_⟩
    exact ⟨[o], by rw [if_pos h]⟩
  · refine ⟨by rw [if_neg h], ?_⟩
    exact ⟨[], by rw [if_neg h, List.append_nil]⟩

theorem clientsSent_map_append (cs : List Client) (cid : Nat) (o : OutMsg)
    (hcl : hasClient cs cid = true) :
    clientsSent
        (cs.map (fun c => if c.cid = cid then { c with sent := c.sent ++ [o] } else c)) cid
      = clientsSent cs cid ++ [o] := by
  induction cs with
  | nil => exact Bool.noConfusion (hcl : false = true)
  | cons c rest ih =>
    rw [List.map_cons, clientsSent_cons, clientsSent_cons]
    by_cases h : c.cid = cid
    · simp [h]
    · have hcl' : hasClient rest cid = true := by
        rw [hasClient_cons] at hcl
        cases hb : (c.cid == cid) with
        | true => exact absurd (by simpa using hb : c.cid = cid) h
        | false => rw [hb, Bool.false_or] at hcl; exact hcl
      simp only [if_neg h]
      exact ih hcl'

theorem sendToClient_self (st : ProxyS) (cid : Nat) (o : OutMsg)
    (hcl : hasClient st.clients cid = true) :
    clientSent (sendToClient st cid o) cid = clientSent st cid ++ [o] :=
  clientsSent_map_append st.clients cid o hcl

theorem sendToClient_cache (st : ProxyS) (cid : Nat) (o : OutMsg) :
    (sendToClient st cid o).snapshotCache = st.snapshotCache := rfl

theorem sendToClient_hasClient (st : ProxyS) (cid' : Nat) (o : OutMsg) (cid : Nat) :
    hasClient (sendToClient st cid' o).clients cid = hasClient st.clients cid := by
  refine hasClient_map st.clients cid _ ?_
  intro c
  by_cases h : c.cid = cid'
  · rw [if_pos h]
  · rw [if_neg h]

theorem subscribeToSymbols_clients (st : ProxyS) (syms : List String) (depth : Nat) :
    (subscribeToSymbols st syms depth).clients = st.clients := by
  unfold subscribeToSymbols
  by_cases h1 : st.bybitOpen = false
  · rw [if_pos h1]
  · rw [if_neg h1]
    by_cases h2 : (syms.filter
        (fun s => decide (¬ subKey s depth ∈ st.subscribedSymbols))).isEmpty = true
    · rw [if_pos h2]
    · rw [if_neg h2]

theorem subscribeToSymbols_cache (st : ProxyS) (syms : List String) (depth : Nat) :
    (subscribeToSymbols st syms depth).snapshotCache = st.snapshotCache := by
  unfold subscribeToSymbols
  by_cases h1 : st.bybitOpen = false
  · rw [if_pos h1]
  · rw [if_neg h1]
    by_cases h2 : (syms.filter
        (fun s => decide (¬ subKey s depth ∈ st.subscribedSymbols))).isEmpty = true
    · rw [if_pos h2]
    · rw [if_neg h2]

theorem unsubscribeFromSymbols_clients (st : ProxyS) (syms : List String) (depth : Nat) :
    (unsubscribeFromSymbols st syms depth).clients = st.clients := by
  unfold unsubscribeFromSymbols
  by_cases h1 : st.bybitOpen = false
  · rw [if_pos h1]
  · rw [if_neg h1]
    by_cases h2 : (syms.filter
        (fun s => decide (subKey s depth ∈ st.subscribedSymbols))).isEmpty = true
    · rw [if_pos h2]
    · rw [if_neg h2]

theorem broadcast_cache (st : ProxyS) (m : BybitMsg) :
    (broadcast st m).snapshotCache = st.snapshotCache := rfl

theorem handleBybitMessage_eq_skip_pong (st : ProxyS) (m : BybitMsg)
    (h : m.op = "pong") : handleBybitMessage st m = st := by
  unfold handleBybitMessage
  rw [if_pos h]

theorem handleBybitMessage_eq_skip_sub (st : ProxyS) (m : BybitMsg)
    (h1 : ¬ m.op = "pong") (h2 : m.op = "subscribe") :
    handleBybitMessage st m = st := by
  unfold handleBybitMessage
  rw [if_neg h1, if_pos h2]

theorem handleBybitMessage_eq_data (st : ProxyS) (m : BybitMsg)
    (h1 : ¬ m.op = "pong") (h2 : ¬ m.op = "subscribe")
    (h3 : strStartsWith m.topic ("orderbook") = true) :
    handleBybitMessage st m
      = broadcast
          (if m.type = "snapshot"
            then { st with snapshotCache := mapSet st.snapshotCache (upstreamKey m.topic) m }
            else st) m := by
  unfold handleBybitMessage
  rw [if_neg h1, if_neg h2, if_pos h3]

theorem handleBybitMessage_eq_skip_topic (st : ProxyS) (m : BybitMsg)
    (h1 : ¬ m.op = "pong") (h2 : ¬ m.op = "subscribe")
    (h3 : ¬ strStartsWith m.topic ("orderbook") = true) :
    handleBybitMessage st m = st := by
  unfold handleBybitMessage
  rw [if_neg h1, if_neg h2, if_neg h3]

theorem handleBybitMessage_clients_mono (st : ProxyS) (m : BybitMsg) (cid : Nat) :
    ∃ t, clientSent (handleBybitMessage st m) cid = clientSent st cid ++ t := by
  by_cases h1 : m.op = "pong"
  · rw [handleBybitMessage_eq_skip_pong st m h1]
    exact ⟨[], (List.append_nil _).symm⟩
  · by_cases h2 : m.op = "subscribe"
    · rw [handleBybitMessage_eq_skip_sub st m h1 h2]
      exact ⟨[], (List.append_nil _).symm⟩
    · by_cases h3 : strStartsWith m.topic ("orderbook") = true
      · rw [handleBybitMessage_eq_data st m h1 h2 h3]
        by_cases h4 : m.type = "snapshot"
        · rw [if_pos h4]
          exact broadcast_clients_mono _ m cid
        · rw [if_neg h4]
          exact broadcast_clients_mono st m cid
      · rw [handleBybitMessage_eq_skip_topic st m h1 h2 h3]
        exact ⟨[], (List.append_nil _).symm⟩

theorem handleClientMessage_ping (st : ProxyS) (cid : Nat) (d : ClientMsg)
    (h : d.type = "ping") :
    handleClientMessage st cid d = sendToClient st cid OutMsg.pong := by
  unfold handleClientMessage
  rw [if_pos h]

theorem handleClientMessage_none (st : ProxyS) (cid : Nat) (d : ClientMsg)
    (hty : ¬ d.type = "ping") (h : d.symbols = none) :
    handleClientMessage st cid d = st := by
  unfold handleClientMessage
  rw [if_neg hty]
  simp only [h]

theorem handleClientMessage_subscribe (st : ProxyS) (cid : Nat) (d : ClientMsg)
    (syms : List String) (hty : ¬ d.type = "ping") (hact : d.action = "subscribe")
    (hsy : d.symbols = some syms) :
    handleClientMessage st cid d
      = sendToClient
          (syms.foldl (fun acc s =>
            match mapGet acc.snapshotCache (subKey s (if d.depth ≠ 0 then d.depth else 50)) with
            | some snap => sendToClient acc cid (OutMsg.data snap)
            | none => acc)
            (subscribeToSymbols st syms (if d.depth ≠ 0 then d.depth else 50)))
          cid (OutMsg.subscribed syms (if d.depth ≠ 0 then d.depth else 50)) := by
  unfold handleClientMessage
  rw [if_neg hty]
  simp only [hsy]
  rw [if_pos hact]

theorem handleClientMessage_unsub (st : ProxyS) (cid : Nat) (d : ClientMsg)
    (syms : List String) (hty : ¬ d.type = "ping") (hact : ¬ d.action = "subscribe")
    (hun : d.action = "unsubscribe") (hsy : d.symbols = some syms) :
    handleClientMessage st cid d
      = unsubscribeFromSymbols st syms (if d.depth ≠ 0 then d.depth else 50) := by
  unfold handleClientMessage
  rw [if_neg hty]
  simp only [hsy]
  rw [if_neg hact, if_pos hun]

theorem handleClientMessage_other (st : ProxyS) (cid : Nat) (d : ClientMsg)
    (syms : List String) (hty : ¬ d.type = "ping") (hact : ¬ d.action = "subscribe")
    (hun : ¬ d.action = "unsubscribe") (hsy : d.symbols = some syms) :
    handleClientMessage st cid d = st := by
  unfold handleClientMessage
  rw [if_neg hty]
  simp only [hsy]
  rw [if_neg hact, if_neg hun]

theorem snapFold_mono (syms : List String) (cid' cid : Nat) (orderDepth : Nat) :
    ∀ st : ProxyS, ∃ t,
      clientSent (syms.foldl (fun acc s =>
        match mapGet acc.snapshotCache (subKey s orderDepth) with
        | some snap => sendToClient acc cid' (OutMsg.data snap)
        | none => acc) st) cid = clientSent st cid ++ t := by
  induction syms with
  | nil => intro st; exact ⟨[], (List.append_nil _).symm⟩
  | cons s rest ih =>
    intro st
    cases hc : mapGet st.snapshotCache (subKey s orderDepth) with
    | some snap =>
      obtain ⟨t2, ht2⟩ := ih (sendToClient st cid' (OutMsg.data snap))
      obtain ⟨t1, ht1⟩ := sendToClient_mono st cid' (OutMsg.data snap) cid
      refine ⟨t1 ++ t2, ?_⟩
      simp only [List.foldl_cons, hc]
      rw [ht2, ht1, List.append_assoc]
    | none =>
      obtain ⟨t2, ht2⟩ := ih st
      refine ⟨t2, ?_⟩
      simp only [List.foldl_cons, hc]
      exact ht2

theorem snapFold_mem (syms : List String) (cid : Nat) (orderDepth : Nat)
    (symbol : String) (snap : BybitMsg) :
    ∀ st : ProxyS, symbol ∈ syms →
      mapGet st.snapshotCache (subKey symbol orderDepth) = some snap →
      hasClient st.clients cid = true →
      OutMsg.data snap ∈ clientSent (syms.foldl (fun acc s =>
        match mapGet acc.snapshotCache (subKey s orderDepth) with
        | some snap2 => sendToClient acc cid (OutMsg.data snap2)
        | none => acc) st) cid := by
  induction syms with
  | nil =>
    intro st hmem _ _
    exact absurd hmem (List.not_mem_nil symbol)
  | cons s rest ih =>
    intro st hmem hcache hcl
    rcases List.mem_cons.mp hmem with rfl | hmem'
    · obtain ⟨t, ht⟩ := snapFold_mono rest cid cid orderDepth
        (sendToClient st cid (OutMsg.data snap))
      simp only [List.foldl_cons, hcache]
      rw [ht, sendToClient_self st cid _ hcl]
      refine List.mem_append.mpr (Or.inl ?_)
      exact List.mem_append.mpr (Or.inr (List.mem_singleton.mpr rfl))
    · cases hc : mapGet st.snapshotCache (subKey s orderDepth) with
      | some snap2 =>
        simp only [List.foldl_cons, hc]
        refine ih _ hmem' ?_ ?_
        · rw [sendToClient_cache]
          exact hcache
        · rw [sendToClient_hasClient]
          exact hcl
      | none =>
        simp only [List.foldl_cons, hc]
        exact ih st hmem' hcache hcl

theorem handleClientMessage_mono (st : ProxyS) (cid' : Nat) (d : ClientMsg)
    (cid : Nat) :
    ∃ t, clientSent (handleClientMessage st cid' d) cid = clientSent st cid ++ t := by
  by_cases hty : d.type = "ping"
  · rw [handleClientMessage_ping st cid' d hty]
    exact sendToClient_mono st cid' OutMsg.pong cid
  · cases hsy : d.symbols with
    | none =>
      rw [handleClientMessage_none st cid' d hty hsy]
      exact ⟨[], (List.append_nil _).symm⟩
    | some syms =>
      by_cases hact : d.action = "subscribe"
      · rw [handleClientMessage_subscribe st cid' d syms hty hact hsy]
        obtain ⟨t2, ht2⟩ := snapFold_mono syms cid' cid (if d.depth ≠ 0 then d.depth else 50)
          (subscribeToSymbols st syms (if d.depth ≠ 0 then d.depth else 50))
        obtain ⟨t3, ht3⟩ := sendToClient_mono _ cid'
          (OutMsg.subscribed syms (if d.depth ≠ 0 then d.depth else 50)) cid
        refine ⟨t2 ++ t3, ?_⟩
        rw [ht3, ht2]
        have hsame : clientSent (subscribeToSymbols st syms
            (if d.depth ≠ 0 then d.depth else 50)) cid = clientSent st cid := by
          unfold clientSent
          rw [subscribeToSymbols_clients]
        rw [hsame, List.append_assoc]
      · by_cases hun : d.action = "unsubscribe"
        · rw [handleClientMessage_unsub st cid' d syms hty hact hun hsy]
          refine ⟨[], ?_⟩
          rw [List.append_nil]
          unfold clientSent
          rw [unsubscribeFromSymbols_clients]
        · rw [handleClientMessage_other st cid' d syms hty hact hun hsy]
          exact ⟨[], (List.append_nil _).symm⟩

theorem pstep_mono (st : ProxyS) (e : PEvent) (cid : Nat) :
    ∃ t, clientSent (pstep st e) cid = clientSent st cid ++ t :=
  match e with
  | .fromBybit m => handleBybitMessage_clients_mono st m cid
  | .fromClient cid' d => handleClientMessage_mono st cid' d cid

theorem prun_mono (es : List PEvent) :
    ∀ (st : ProxyS) (cid : Nat), ∃ t, clientSent (prun st es) cid = clientSent st cid ++ t := by
  induction es with
  | nil => intro st cid; exact ⟨[], (List.append_nil _).symm⟩
  | cons e rest ih =>
    intro st cid
    obtain ⟨t1, h1⟩ := pstep_mono st e cid
    obtain ⟨t2, h2⟩ := ih (pstep st e) cid
    refine ⟨t1 ++ t2, ?_⟩
    show clientSent (prun (pstep st e) rest) cid = _
    rw [h2, h1, List.append_assoc]

theorem subscribe_sends_cached (st : ProxyS) (cid : Nat) (d : ClientMsg)
    (syms : List String) (symbol : String) (snap : BybitMsg)
    (hty : ¬ d.type = "ping") (hact : d.action = "subscribe")
    (hsy : d.symbols = some syms) (hmem : symbol ∈ syms)
    (hcache : mapGet st.snapshotCache
      (subKey symbol (if d.depth ≠ 0 then d.depth else 50)) = some snap)
    (hcl : hasClient st.clients cid = true) :
    OutMsg.data snap ∈ clientSent (handleClientMessage st cid d) cid := by
  rw [handleClientMessage_subscribe st cid d syms hty hact hsy]
  have hc1 : mapGet (subscribeToSymbols st syms
      (if d.depth ≠ 0 then d.depth else 50)).snapshotCache
      (subKey symbol (if d.depth ≠ 0 then d.depth else 50)) = some snap := by
    rw [subscribeToSymbols_cache]
    exact hcache
  have hcl1 : hasClient (subscribeToSymbols st syms
      (if d.depth ≠ 0 then d.depth else 50)).clients cid = true := by
    rw [subscribeToSymbols_clients]
    exact hcl
  have hmemfold := snapFold_mem syms cid (if d.depth ≠ 0 then d.depth else 50) symbol snap
    (subscribeToSymbols st syms (if d.depth ≠ 0 then d.depth else 50)) hmem hc1 hcl1
  obtain ⟨t, ht⟩ := sendToClient_mono _ cid
    (OutMsg.subscribed syms (if d.depth ≠ 0 then d.depth else 50)) cid
  rw [ht]
  exact List.mem_append.mpr (Or.inl hmemfold)

/-- C4: the reconnect handler feeds the stored `symbol-depth` keys back into
`subscribeToSymbols` as if they were bare symbols, with the default depth 50.
With the single active key `"BTCUSDT-200"` the reopened connection sends the
malformed channel argument `orderbook.50.BTCUSDT-200` — not the channel
`orderbook.200.BTCUSDT` reconstructed from the key — and adds the spurious
key `"BTCUSDT-200-50"` to the active set. -/
theorem C4_resubscribe_malformed :
    (bybitOnOpen ⟨["BTCUSDT-200"], [], [], false, []⟩).sentOps
        = [("subscribe", ["orderbook.50.BTCUSDT-200"])]
      ∧ (bybitOnOpen ⟨["BTCUSDT-200"], [], [], false, []⟩).subscribedSymbols
        = ["BTCUSDT-200", "BTCUSDT-200-50"]
      ∧ ¬ (bybitOnOpen ⟨["BTCUSDT-200"], [], [], false, []⟩).sentOps
        = [("subscribe", ["orderbook.200.BTCUSDT"])] := by
  refine ⟨by decide, by decide, by decide⟩

/-- C10: every upstream data message (no control `op` field) on an orderbook
topic is broadcast verbatim to exactly the connected clients whose sockets
are open — delivery depends only on the socket's open flag, the proxy keeps
no per-client subscription state to filter on, and closed sockets are
skipped. -/
theorem C10_broadcast_no_filtering (st : ProxyS) (m : BybitMsg)
    (hop : m.op = "") (htopic : strStartsWith m.topic ("orderbook") = true) :
    (handleBybitMessage st m).clients
      = st.clients.map (fun c =>
          if c.readyOpen then { c with sent := c.sent ++ [OutMsg.data m] } else c) := by
  have h1 : ¬ m.op = "pong" := by rw [hop]; decide
  have h2 : ¬ m.op = "subscribe" := by rw [hop]; decide
  rw [handleBybitMessage_eq_data st m h1 h2 htopic]
  by_cases h4 : m.type = "snapshot"
  · rw [if_pos h4]
    rfl
  · rw [if_neg h4]
    rfl

/-- Witness for C10: a delta is delivered to the open client and not to the
closed one, though neither ever subscribed. -/
theorem C10_witness :
    ((⟨"", true, "orderbook.50.BTCUSDT", "delta", ⟨[("100", "2")], [], 11, 2⟩⟩ : BybitMsg).op = ""
      ∧ strStartsWith
          ((⟨"", true, "orderbook.50.BTCUSDT", "delta", ⟨[("100", "2")], [], 11, 2⟩⟩ : BybitMsg).topic)
          ("orderbook") = true)
    ∧ (handleBybitMessage
        ⟨[], [], [⟨0, true, []⟩, ⟨1, false, []⟩], true, []⟩
        ⟨"", true, "orderbook.50.BTCUSDT", "delta", ⟨[("100", "2")], [], 11, 2⟩⟩).clients
      = ([⟨0, true, []⟩, ⟨1, false, []⟩] : List Client).map (fun c =>
          if c.readyOpen then
            { c with sent := c.sent ++ [OutMsg.data
                ⟨"", true, "orderbook.50.BTCUSDT", "delta", ⟨[("100", "2")], [], 11, 2⟩⟩] }
          else c) :=
  ⟨⟨rfl, by decide⟩,
    C10_broadcast_no_filtering ⟨[], [], [⟨0, true, []⟩, ⟨1, false, []⟩], true, []⟩
      ⟨"", true, "orderbook.50.BTCUSDT", "delta", ⟨[("100", "2")], [], 11, 2⟩⟩
      rfl (by decide)⟩

/-- C8: (a) processing an upstream data message (no control `op` field)
overwrites the snapshot cache entry for the key extracted from the message's
topic exactly when the message has an orderbook topic and type `snapshot` —
a delta never touches the cache; (b) when a connected client's subscribe
request finds a cached snapshot for one of its symbols at the requested
depth, that snapshot is sent to the client during the subscribe event
itself, and whatever later events deliver to that client — in particular any
subsequent live delta broadcast — is appended strictly after it in the
client's ordered output. -/
theorem C8_snapshot_cache_semantics :
    (∀ (st : ProxyS) (m : BybitMsg), m.op = "" →
      (handleBybitMessage st m).snapshotCache
        = if strStartsWith m.topic ("orderbook") = true ∧ m.type = "snapshot"
          then mapSet st.snapshotCache (upstreamKey m.topic) m
          else st.snapshotCache)
    ∧ (∀ (st0 : ProxyS) (es1 es2 : List PEvent) (cid : Nat) (d : ClientMsg)
        (syms : List String) (symbol : String) (snap : BybitMsg),
        ¬ d.type = "ping" → d.action = "subscribe" → d.symbols = some syms →
        symbol ∈ syms →
        mapGet (prun st0 es1).snapshotCache
            (subKey symbol (if d.depth ≠ 0 then d.depth else 50)) = some snap →
        hasClient (prun st0 es1).clients cid = true →
        OutMsg.data snap
            ∈ clientSent (pstep (prun st0 es1) (PEvent.fromClient cid d)) cid
          ∧ ∃ t, clientSent
                (prun (pstep (prun st0 es1) (PEvent.fromClient cid d)) es2) cid
              = clientSent (pstep (prun st0 es1) (PEvent.fromClient cid d)) cid ++ t) := by
  constructor
  · intro st m hop
    have h1 : ¬ m.op = "pong" := by rw [hop]; decide
    have h2 : ¬ m.op = "subscribe" := by rw [hop]; decide
    by_cases h3 : strStartsWith m.topic ("orderbook") = true
    · rw [handleBybitMessage_eq_data st m h1 h2 h3]
      by_cases h4 : m.type = "snapshot"
      · rw [if_pos h4, if_pos ⟨h3, h4⟩, broadcast_cache]
      · rw [if_neg h4, if_neg (fun hc => h4 hc.2), broadcast_cache]
    · rw [handleBybitMessage_eq_skip_topic st m h1 h2 h3,
        if_neg (fun hc => h3 hc.1)]
  · intro st0 es1 es2 cid d syms symbol snap hty hact hsy hmem hcache hcl
    refine ⟨subscribe_sends_cached _ cid d syms symbol snap hty hact hsy hmem hcache hcl, ?_⟩
    exact prun_mono es2 _ cid

/-- Witness for C8 on a concrete trace: a snapshot arrives and is cached, a
client subscribes and receives the cached snapshot, then a live delta
arrives and is delivered after it. -/
theorem C8_witness :
    ((¬ (("" : String) = "ping"))
      ∧ ("BTCUSDT" : String) ∈ ["BTCUSDT"]
      ∧ mapGet (prun ⟨[], [], [⟨0, true, []⟩], true, []⟩
            [PEvent.fromBybit
              ⟨"", true, "orderbook.50.BTCUSDT", "snapshot", ⟨[("100", "5")], [("101", "3")], 10, 1⟩⟩]).snapshotCache
          (subKey ("BTCUSDT") (if (50 : Nat) ≠ 0 then 50 else 50))
        = some ⟨"", true, "orderbook.50.BTCUSDT", "snapshot", ⟨[("100", "5")], [("101", "3")], 10, 1⟩⟩
      ∧ hasClient (prun ⟨[], [], [⟨0, true, []⟩], true, []⟩
            [PEvent.fromBybit
              ⟨"", true, "orderbook.50.BTCUSDT", "snapshot", ⟨[("100", "5")], [("101", "3")], 10, 1⟩⟩]).clients 0 = true)
    ∧ (OutMsg.data ⟨"", true, "orderbook.50.BTCUSDT", "snapshot", ⟨[("100", "5")], [("101", "3")], 10, 1⟩⟩
          ∈ clientSent (pstep (prun ⟨[], [], [⟨0, true, []⟩], true, []⟩
              [PEvent.fromBybit
                ⟨"", true, "orderbook.50.BTCUSDT", "snapshot", ⟨[("100", "5")], [("101", "3")], 10, 1⟩⟩])
              (PEvent.fromClient 0 ⟨"", "subscribe", some ["BTCUSDT"], 50⟩)) 0
        ∧ ∃ t, clientSent
              (prun (pstep (prun ⟨[], [], [⟨0, true, []⟩], true, []⟩
                [PEvent.fromBybit
                  ⟨"", true, "orderbook.50.BTCUSDT", "snapshot", ⟨[("100", "5")], [("101", "3")], 10, 1⟩⟩])
                (PEvent.fromClient 0 ⟨"", "subscribe", some ["BTCUSDT"], 50⟩))
                [PEvent.fromBybit
                  ⟨"", true, "orderbook.50.BTCUSDT", "delta", ⟨[("100", "0")], [], 11, 2⟩⟩]) 0
            = clientSent (pstep (prun ⟨[], [], [⟨0, true, []⟩], true, []⟩
                [PEvent.fromBybit
                  ⟨"", true, "orderbook.50.BTCUSDT", "snapshot", ⟨[("100", "5")], [("101", "3")], 10, 1⟩⟩])
                (PEvent.fromClient 0 ⟨"", "subscribe", some ["BTCUSDT"], 50⟩)) 0 ++ t) :=
  ⟨⟨by decide, by decide, by decide, by decide⟩,
    C8_snapshot_cache_semantics.2 ⟨[], [], [⟨0, true, []⟩], true, []⟩
      [PEvent.fromBybit
        ⟨"", true, "orderbook.50.BTCUSDT", "snapshot", ⟨[("100", "5")], [("101", "3")], 10, 1⟩⟩]
      [PEvent.fromBybit
        ⟨"", true, "orderbook.50.BTCUSDT", "delta", ⟨[("100", "0")], [], 11, 2⟩⟩]
      0 ⟨"", "subscribe", some ["BTCUSDT"], 50⟩ ["BTCUSDT"] ("BTCUSDT")
      ⟨"", true, "orderbook.50.BTCUSDT", "snapshot", ⟨[("100", "5")], [("101", "3")], 10, 1⟩⟩
      (by decide) (by decide) (by decide) (by decide) (by decide) (by decide)⟩
